import Mathlib

/-!
Formal model of the hashrsvp/thumbnail-generator maintenance scripts.

The scripts scan a storage bucket laid out as `collection/eventId/filename`,
decide which events are missing a derived asset, and backfill it by
downloading the sibling asset, re-encoding it under a byte ceiling, and
uploading the result.

Modelling conventions:
* byte strings are `List Nat` (one entry per byte value);
* the image encoders (`PIL.Image.save` for PNG / JPEG) are abstract
  parameters: a function from the encode dimensions (and JPEG quality) to
  the encoded bytes — the scripts only ever inspect the length of the
  encoder output, so this is the interface the control flow actually uses;
* Python float arithmetic (the `aspect_ratio` divisions, the
  `dimension_scale` / `scale_factor` variables stepping by `-= 0.1`, and
  the `int(...)` truncations of float products and quotients) is modelled
  by exact IEEE 754 binary64 semantics: float values are the exact
  rationals of binary64 numbers and every operation is rounded to nearest,
  ties to even, by the computable `floatRound` below — so the drifted
  scale values such as `0.30000000000000016` and the one-below-exact-floor
  truncations of the real program are reproduced exactly;
* Python's `str.split('/')` is modelled character-exactly by `pySplit`;
* network/Firebase effects are modelled by oracle functions passed as
  arguments (a download may return `none`, an upload may return `false`),
  matching the scripts' own error signalling.
-/

/-! ## Python string splitting -/

/-- Helper for `pySplit`: walks the character list, cutting at each
separator occurrence.  `acc` holds the (reversed) characters of the
current segment. -/
def splitAux (sep : Char) : List Char → List Char → List String
  | [], acc => [String.mk acc.reverse]
  | c :: cs, acc =>
    if c = sep then String.mk acc.reverse :: splitAux sep cs []
    else splitAux sep cs (c :: acc)

/-- Python `s.split(sep)` for a single-character separator: splits on every
occurrence, keeping empty segments (so `"".split('/') = [""]`). -/
def pySplit (sep : Char) (s : String) : List String :=
  splitAux sep s.data []

/-- Indexing into the split result; the scripts only index after checking
`len(path_parts) >= 3`, so the default is never reached there. -/
def seg (parts : List String) (i : Nat) : String :=
  parts.getD i ""

/-! ## Bucket scanner (`get_events_needing_thumbnails`, generate_thumbnails.py) -/

/-- Recognized full-image filenames (generate_thumbnails.py line 97). -/
def imageNames : List String := ["event_image.png", "event_image.jpg"]

/-- Recognized thumbnail filenames (generate_thumbnails.py line 99). -/
def thumbNames : List String := ["event_thumbnail.png", "event_thumbnail.jpg"]

/-- Per-event record built by the scanner:
`{'has_image': ..., 'has_thumbnail': ...}`. -/
structure EventFlags where
  has_image : Bool
  has_thumbnail : Bool
deriving DecidableEq

/-- Flag update for one filename seen under an event
(generate_thumbnails.py lines 97–100): image names set `has_image`,
else thumbnail names set `has_thumbnail`, anything else is ignored. -/
def applyFilename (fn : String) (f : EventFlags) : EventFlags :=
  if fn ∈ imageNames then { f with has_image := true }
  else if fn ∈ thumbNames then { f with has_thumbnail := true }
  else f

/-- Insert-or-update of the `events` dict, modelled as an insertion-ordered
association list (Python dicts preserve insertion order): a missing key is
appended with default flags `{False, False}` before the update. -/
def updFlags (eid fn : String) : List (String × EventFlags) → List (String × EventFlags)
  | [] => [(eid, applyFilename fn ⟨false, false⟩)]
  | (k, f) :: rest =>
    if k = eid then (k, applyFilename fn f) :: rest
    else (k, f) :: updFlags eid fn rest

/-- Processing of one blob name (generate_thumbnails.py lines 88–100):
split on '/', require at least three segments, take the event id from
segment 1 and the filename from segment 2. -/
def procBlob (events : List (String × EventFlags)) (name : String) :
    List (String × EventFlags) :=
  let parts := pySplit '/' name
  if 3 ≤ parts.length then updFlags (seg parts 1) (seg parts 2) events
  else events

/-- The grouping pass over the whole listing (generate_thumbnails.py
lines 87–100). -/
def scanEvents (names : List String) : List (String × EventFlags) :=
  names.foldl procBlob []

/-- Selection of events that have an image but no thumbnail
(generate_thumbnails.py lines 102–105). -/
def get_events_needing_thumbnails (names : List String) : List String :=
  ((scanEvents names).filter (fun p => p.2.has_image && !p.2.has_thumbnail)).map Prod.fst

/-- A blob name mentions event `eid`: it has at least three '/'-segments
and its second segment is `eid`. -/
def mentionsEvent (name eid : String) : Bool :=
  let parts := pySplit '/' name
  decide (3 ≤ parts.length) && decide (seg parts 1 = eid)

/-- A blob name contributes `has_image` to event `eid`. -/
def givesImage (name eid : String) : Bool :=
  mentionsEvent name eid && decide (seg (pySplit '/' name) 2 ∈ imageNames)

/-- A blob name contributes `has_thumbnail` to event `eid`. -/
def givesThumb (name eid : String) : Bool :=
  mentionsEvent name eid && decide (seg (pySplit '/' name) 2 ∈ thumbNames)

/-- Association-list lookup mirroring Python dict access on the scanner's
`events` dict. -/
def lookupFlags (eid : String) : List (String × EventFlags) → Option EventFlags
  | [] => none
  | (k, f) :: rest => if k = eid then some f else lookupFlags eid rest

/-! ## Upload content types and object names -/

/-- JPEG start-of-image marker `b'\xff\xd8\xff'`. -/
def jpegMagic : List Nat := [0xFF, 0xD8, 0xFF]

/-- Content type chosen by `ThumbnailGenerator.upload_thumbnail`
(generate_thumbnails.py lines 236–238): sniffed from the output bytes. -/
def upload_content_type_thumbnails (data : List Nat) : String :=
  if jpegMagic.isPrefixOf data then "image/jpeg" else "image/png"

/-- Content type chosen by `SimpleImageGenerator.upload_image`
(generate_missing_images_simple.py lines 282–284): sniffed from the bytes. -/
def upload_content_type_simple (data : List Nat) : String :=
  if jpegMagic.isPrefixOf data then "image/jpeg" else "image/png"

/-- Content type chosen by `MissingImageGenerator.upload_image`
(generate_missing_images.py line 208): always `'image/png'`. -/
def upload_content_type_missing (_data : List Nat) : String := "image/png"

/-- Content type chosen by `RecentImageGenerator.upload_image`
(generate_missing_images_recent.py line 298): always `'image/png'`. -/
def upload_content_type_recent (_data : List Nat) : String := "image/png"

/-- Content type chosen by `LimitedImageGenerator.upload_image`
(generate_missing_images_limited.py line 216): always `'image/png'`. -/
def upload_content_type_limited (_data : List Nat) : String := "image/png"

/-- Object name used by `upload_thumbnail` (generate_thumbnails.py
line 233): the f-string `f"{collection}/{event_id}/event_thumbnail.png"`. -/
def thumbnail_blob_path (collection eid : String) : String :=
  collection ++ "/" ++ eid ++ "/event_thumbnail.png"

/-- Object name used by the image uploaders (e.g.
generate_missing_images_simple.py line 279):
`f"{collection}/{event_id}/event_image.png"`. -/
def image_blob_path (collection eid : String) : String :=
  collection ++ "/" ++ eid ++ "/event_image.png"

/-- The pair (object name, content type) written by
`ThumbnailGenerator.upload_thumbnail`. -/
def upload_thumbnail (collection eid : String) (data : List Nat) : String × String :=
  (thumbnail_blob_path collection eid, upload_content_type_thumbnails data)

/-- The pair (object name, content type) written by
`SimpleImageGenerator.upload_image`. -/
def upload_image_simple (collection eid : String) (data : List Nat) : String × String :=
  (image_blob_path collection eid, upload_content_type_simple data)

/-! ## Top-K-newest selection (generate_missing_images_limited.py) -/

/-- Per-event record of the limited script's scanner
(generate_missing_images_limited.py line 98); the timestamp is a `Nat`
stand-in for the blob's `time_created`, `none` when absent. -/
structure LRec where
  has_image : Bool
  has_thumbnail : Bool
  thumbnail_date : Option Nat
deriving DecidableEq

/-- Candidate extraction (generate_missing_images_limited.py lines 115–117):
events with a thumbnail, no image, and a present date, paired with the date. -/
def limitedCandidates (events : List (String × LRec)) : List (String × Nat) :=
  events.filterMap fun p =>
    if p.2.has_thumbnail && !p.2.has_image then p.2.thumbnail_date.map (fun d => (p.1, d))
    else none

/-- Stable descending insertion: `x` is placed before the first element
whose date is less than or equal to `x`'s, so earlier elements stay first
among equal dates.  Any stable sort (in particular Python's
`sort(key=..., reverse=True)`, line 120) computes the same list. -/
def insertDesc (x : String × Nat) : List (String × Nat) → List (String × Nat)
  | [] => [x]
  | y :: ys => if y.2 ≤ x.2 then x :: y :: ys else y :: insertDesc x ys

/-- Stable sort by date descending, modelling
`events_with_dates.sort(key=lambda x: x[1], reverse=True)`. -/
def sortDesc : List (String × Nat) → List (String × Nat)
  | [] => []
  | x :: xs => insertDesc x (sortDesc xs)

/-- The limited script's selection
(generate_missing_images_limited.py lines 114–121): sort candidates by
date descending and keep the first `max_events` ids. -/
def get_events_needing_images_limited (events : List (String × LRec)) (max_events : Nat) :
    List String :=
  ((sortDesc (limitedCandidates events)).take max_events).map Prod.fst

/-! ## Per-event pipeline and counters -/

/-- The three counters every generator script initializes in `__init__`
(e.g. generate_thumbnails.py lines 53–55). -/
structure Counters where
  processed : Nat
  skipped : Nat
  error : Nat
deriving DecidableEq

/-- Counter state right after `__init__`: all three start at zero. -/
def initCounters : Counters := ⟨0, 0, 0⟩

/-- Python truthiness test `if not data:` on an optional byte string —
true for `None` and for empty bytes. -/
def pyFalsy (o : Option (List Nat)) : Bool :=
  match o with
  | none => true
  | some bs => bs.isEmpty

/-- One event's pipeline, `ThumbnailGenerator.process_event`
(generate_thumbnails.py lines 250–278).  The three stages are oracle
functions: `dl` models `download_image` (`none` = failure), `mk` models
`create_thumbnail` (`none` = decode failure), `up` models
`upload_thumbnail`'s success flag.  Each failure increments `error_count`
and returns `False`; success increments `processed_count`. -/
def process_event (dl : String → Option (List Nat)) (mk : List Nat → Option (List Nat))
    (up : String → List Nat → Bool) (c : Counters) (eid : String) : Bool × Counters :=
  let img := dl eid
  if pyFalsy img then (false, { c with error := c.error + 1 })
  else
    let td := mk (img.getD [])
    if pyFalsy td then (false, { c with error := c.error + 1 })
    else if up eid (td.getD []) then (true, { c with processed := c.processed + 1 })
    else (false, { c with error := c.error + 1 })

/-- Whether an event's pipeline succeeds end to end. -/
def eventSucceeds (dl : String → Option (List Nat)) (mk : List Nat → Option (List Nat))
    (up : String → List Nat → Bool) (eid : String) : Bool :=
  !pyFalsy (dl eid) &&
    (!pyFalsy (mk ((dl eid).getD [])) && up eid ((mk ((dl eid).getD [])).getD []))

/-- The batch driver `generate_thumbnails` (lines 299–318): every selected
event is run through `process_event` and the shared counters accumulate.
The thread pool is a parallel map over independent events; the counter
totals are order-independent, so the fold models it. -/
def runBatch (dl : String → Option (List Nat)) (mk : List Nat → Option (List Nat))
    (up : String → List Nat → Bool) (c : Counters) (events : List String) : Counters :=
  events.foldl (fun acc e => (process_event dl mk up acc e).2) c
/-! ## Binary64 floating-point model

The scripts do their dimension arithmetic in Python floats (IEEE 754
binary64): `aspect_ratio = w / h`, `int(new_width / aspect_ratio)`,
`dimension_scale -= 0.1`, `int(width * scale_factor)`, and the loop
tests `dimension_scale > 0.3` / `scale_factor > 0.5`.  Repeated
`-= 0.1` drifts (after seven updates from `1.0` the value is
`0.30000000000000016`, which still passes `> 0.3`), so an exact-rational
model would drop iterations the program runs.  Floats are modelled here
as the exact rational values of binary64 numbers, with every operation
rounded by `floatRound` (round to nearest, ties to even), as IEEE 754
prescribes for every basic operation on double operands.  The rounding
is implemented computably; `floatRound_err` below bounds its relative
error and `floatRound_dyadic` proves it exact on small dyadics, which is
all the development needs. -/

/-- Floor of the base-2 logarithm, with structural fuel. -/
def log2Aux : Nat → Nat → Nat
  | 0, _ => 0
  | fuel + 1, n => if n ≤ 1 then 0 else log2Aux fuel (n / 2) + 1

/-- Floor of the base-2 logarithm of a natural number (0 at 0 and 1). -/
def natLog2 (n : Nat) : Nat := log2Aux n n

/-- Round `x / y` to the nearest integer, ties to even. -/
def rneDiv (x y : Nat) : Nat :=
  let d := x / y
  let r := x % y
  if 2 * r < y then d
  else if y < 2 * r then d + 1
  else if d % 2 = 0 then d else d + 1

/-- Floor of the base-2 logarithm of the positive rational `a / b`. -/
def ratLog2 (a b : Nat) : Int :=
  let la := natLog2 a
  let lb := natLog2 b
  if lb ≤ la then
    if b * 2 ^ (la - lb) ≤ a then (la : Int) - lb else (la : Int) - lb - 1
  else
    if b ≤ a * 2 ^ (lb - la) then (la : Int) - lb else (la : Int) - lb - 1

/-- Binary64 rounding of the positive rational `a / b`: scale the value
so that it lies in `[2^52, 2^53)`, round to an integer significand with
ties to even, and scale back.  (Exponent overflow and subnormals are far
outside the ranges this development touches.) -/
def floatRoundPos (a b : Nat) : ℚ :=
  let p : Int := 52 - ratLog2 a b
  if 0 ≤ p then ((rneDiv (a * 2 ^ p.toNat) b : Nat) : ℚ) / 2 ^ p.toNat
  else ((rneDiv a (b * 2 ^ (-p).toNat) : Nat) : ℚ) * 2 ^ (-p).toNat

/-- Binary64 rounding (round to nearest, ties to even) of a rational. -/
def floatRound (x : ℚ) : ℚ :=
  if x = 0 then 0
  else if 0 < x then floatRoundPos x.num.toNat x.den
  else -floatRoundPos (-x).num.toNat (-x).den

/-- Correctly rounded binary64 subtraction of double operands. -/
def fsub (x y : ℚ) : ℚ := floatRound (x - y)

/-- Correctly rounded binary64 multiplication of double operands. -/
def fmul (x y : ℚ) : ℚ := floatRound (x * y)

/-- Correctly rounded binary64 division of double operands. -/
def fdiv (x y : ℚ) : ℚ := floatRound (x / y)

/-- Python `float(n)` of a nonnegative integer (exact below `2^53`). -/
def pyFloat (n : Nat) : ℚ := floatRound n

/-- Python `int()` truncation of a float; the values truncated by the
scripts are all nonnegative, where truncation is the floor. -/
def pyTrunc (q : ℚ) : Nat := ⌊q⌋₊

/-- The binary64 value of the literal `0.1`. -/
def d0_1 : ℚ := floatRound (1 / 10)

/-- The binary64 value of the literal `0.3`. -/
def d0_3 : ℚ := floatRound (3 / 10)

/-- The binary64 value of the literal `0.5` (exact). -/
def d0_5 : ℚ := floatRound (1 / 2)

/-- The binary64 value of the literal `0.6`. -/
def d0_6 : ℚ := floatRound (6 / 10)

/-- The binary64 value of the literal `0.7`. -/
def d0_7 : ℚ := floatRound (7 / 10)

/-- Exact trajectory of a float scale variable starting at `s0` and
updated by `-= 0.1`: `fchain s0 k` is its value after `k` updates
(e.g. `fchain 1 7 = 0.30000000000000016`, which passes `> 0.3`). -/
def fchain (s0 : ℚ) : Nat → ℚ
  | 0 => s0
  | k + 1 => fsub (fchain s0 k) d0_1

/-! ## Asset transcoder: dimensions -/

/-- The float `aspect_ratio = original_width / original_height`
(generate_thumbnails.py line 139 and likewise in the other scripts). -/
def aspectF (w h : Nat) : ℚ := fdiv (pyFloat w) (pyFloat h)

/-- Initial thumbnail dimensions of `create_thumbnail`
(generate_thumbnails.py lines 147–157): cap the long edge at 400
(integer `min`), the other edge is `int(new_width / aspect_ratio)`
(float division, truncated), and symmetrically for portrait images.
The branch is the integer test `original_width >= original_height`. -/
def ctInitDims (w h : Nat) : Nat × Nat :=
  if h ≤ w then
    let nw := min 400 w
    (nw, pyTrunc (fdiv (pyFloat nw) (aspectF w h)))
  else
    let nh := min 400 h
    (pyTrunc (fmul (pyFloat nh) (aspectF w h)), nh)

/-- Scaled dimensions `int(width * scale_factor)` at float scale `s`,
used by every quality/scale loop. -/
def scaledDims (w h : Nat) (s : ℚ) : Nat × Nat :=
  (pyTrunc (fmul (pyFloat w) s), pyTrunc (fmul (pyFloat h) s))

/-- Final-attempt dimensions (generate_thumbnails.py lines 214–215):
`max(100, int(new_width * 0.5))` — the `* 0.5` is float but exact — and
the same for the height. -/
def ctFinalDims (nw nh : Nat) : Nat × Nat :=
  (max 100 (pyTrunc (fmul (pyFloat nw) d0_5)),
   max 100 (pyTrunc (fmul (pyFloat nh) d0_5)))

/-- Output dimensions of `upscale_image`
(generate_missing_images.py lines 160–168, identical in the limited,
simple and recent scripts) for the default 800×800 target box.  The
branch is the float test `aspect_ratio >= 1`. -/
def upscaleDims (w h : Nat) : Nat × Nat :=
  if 1 ≤ aspectF w h then
    let nw := min 800 (pyTrunc (fmul (pyFloat 800) (aspectF w h)))
    (nw, pyTrunc (fdiv (pyFloat nw) (aspectF w h)))
  else
    let nh := min 800 (pyTrunc (fdiv (pyFloat 800) (aspectF w h)))
    (pyTrunc (fmul (pyFloat nh) (aspectF w h)), nh)

/-! ## Asset transcoder: encoder abstraction -/

/-- Output format of one encode attempt. -/
inductive Fmt where
  | png
  | jpeg
deriving DecidableEq

/-- One encode attempt: format, encode dimensions, JPEG quality
(ignored for PNG). -/
structure Cand where
  fmt : Fmt
  cw : Nat
  ch : Nat
  q : Nat
deriving DecidableEq

/-- Bytes produced for a candidate by the abstract encoders. -/
def encodeC (png : Nat → Nat → List Nat) (jpeg : Nat → Nat → Nat → List Nat) :
    Cand → List Nat
  | ⟨Fmt.png, w, h, _⟩ => png w h
  | ⟨Fmt.jpeg, w, h, q⟩ => jpeg w h q

/-- Whether a candidate's encoded bytes fit under the ceiling. -/
def fitsC (png : Nat → Nat → List Nat) (jpeg : Nat → Nat → Nat → List Nat)
    (ceiling : Nat) (c : Cand) : Bool :=
  decide ((encodeC png jpeg c).length ≤ ceiling)

/-- First index of a list element satisfying `p`. -/
def findIdxP (p : α → Bool) : List α → Option Nat
  | [] => none
  | x :: xs => if p x then some 0 else (findIdxP p xs).map (· + 1)

/-! ## create_thumbnail (generate_thumbnails.py lines 133–228)

Each `while` loop below is embedded as structural recursion on an
explicit fuel argument; the loop state is the JPEG quality `q` and the
count `k` of `scale -= 0.1` updates executed, so the float scale
variable's exact value is `fchain s0 k` and the loop test compares it
with the binary64 literal.  The `..._stable` theorems below prove the
entry fuels are never exhausted (the guards fail first), so the
embedded loops run exactly the program's iterations. -/

/-- The quality/scale search loop of `create_thumbnail`
(generate_thumbnails.py lines 162–211): loop while
`quality > 15 and dimension_scale > 0.3`; at scale below 1.0 the image
is resized to `int(new_width * dimension_scale)`; iterations with a
dimension under 100 break out; each iteration tries PNG then JPEG at
quality `q`, returning the first encode within `target`; otherwise
quality drops by 10 above 50, by 5 above 25, and else the scale drops
by the float `0.1` with quality reset to 85. -/
def ctLoopF (png : Nat → Nat → List Nat) (jpeg : Nat → Nat → Nat → List Nat)
    (nw nh target : Nat) : Nat → Nat → Nat → Option (List Nat)
  | 0, _, _ => none
  | fuel + 1, q, k =>
    if 15 < q ∧ d0_3 < fchain 1 k then
      let dims := if fchain 1 k < 1 then scaledDims nw nh (fchain 1 k) else (nw, nh)
      if dims.1 < 100 ∨ dims.2 < 100 then none
      else
        let p := png dims.1 dims.2
        if p.length ≤ target then some p
        else
          let j := jpeg dims.1 dims.2 q
          if j.length ≤ target then some j
          else if 50 < q then ctLoopF png jpeg nw nh target fuel (q - 10) k
          else if 25 < q then ctLoopF png jpeg nw nh target fuel (q - 5) k
          else ctLoopF png jpeg nw nh target fuel 85 (k + 1)
    else none

/-- The candidates `ctLoopF` examines, in examination order; the list
depends only on the dimensions, not on the encoders or the ceiling. -/
def ctCandsF (nw nh : Nat) : Nat → Nat → Nat → List Cand
  | 0, _, _ => []
  | fuel + 1, q, k =>
    if 15 < q ∧ d0_3 < fchain 1 k then
      let dims := if fchain 1 k < 1 then scaledDims nw nh (fchain 1 k) else (nw, nh)
      if dims.1 < 100 ∨ dims.2 < 100 then []
      else
        ⟨Fmt.png, dims.1, dims.2, 0⟩ :: ⟨Fmt.jpeg, dims.1, dims.2, q⟩ ::
          (if 50 < q then ctCandsF nw nh fuel (q - 10) k
           else if 25 < q then ctCandsF nw nh fuel (q - 5) k
           else ctCandsF nw nh fuel 85 (k + 1))
    else []

/-- The complete candidate order of `create_thumbnail`'s search, from
the entry state `quality = 85`, `dimension_scale = 1.0`. -/
def ctCands (nw nh : Nat) : List Cand := ctCandsF nw nh 2000 85 0

/-- `ThumbnailGenerator.create_thumbnail` for a decodable `w × h` input
(generate_thumbnails.py lines 133–224): initial aspect-preserving
resize, the quality/scale search from `(85, 1.0)`, and — when the
search falls through — the final attempt
`img.resize(final), save(JPEG, quality=15)` whose result is returned
regardless of its size (lines 213–224). -/
def create_thumbnail (png : Nat → Nat → List Nat) (jpeg : Nat → Nat → Nat → List Nat)
    (w h target : Nat) : List Nat :=
  let nw := (ctInitDims w h).1
  let nh := (ctInitDims w h).2
  match ctLoopF png jpeg nw nh target 2000 85 0 with
  | some r => r
  | none => jpeg (ctFinalDims nw nh).1 (ctFinalDims nw nh).2 15

/-! ## _optimize_image_size (generate_missing_images_recent.py lines 211–289) -/

/-- The recent script's JPEG quality/scale loop
(generate_missing_images_recent.py lines 224–255): quality from 95,
scale from 1.0; loop while `quality > 30 and scale_factor > 0.5` (the
float chain makes the last scale level `0.5000000000000001`); quality
drops by 10 above 70, by 5 above 50, else the scale drops by the float
`0.1` and quality resets to 80. -/
def roLoopF (jpeg : Nat → Nat → Nat → List Nat) (w h maxS : Nat) :
    Nat → Nat → Nat → Option (List Nat)
  | 0, _, _ => none
  | fuel + 1, q, k =>
    if 30 < q ∧ d0_5 < fchain 1 k then
      let dims := if fchain 1 k < 1 then scaledDims w h (fchain 1 k) else (w, h)
      let j := jpeg dims.1 dims.2 q
      if j.length ≤ maxS then some j
      else if 70 < q then roLoopF jpeg w h maxS fuel (q - 10) k
      else if 50 < q then roLoopF jpeg w h maxS fuel (q - 5) k
      else roLoopF jpeg w h maxS fuel 80 (k + 1)
    else none

/-- The recent script's aggressive scale-down tail
(generate_missing_images_recent.py lines 268–282): `scale_factor`
starts at the float `0.7` and drops by the float `0.1` while above
`0.3` (so the scales run `0.7, 0.6, 0.5, 0.4, 0.30000000000000004`),
encoding at quality 60 and accepting only results within the ceiling. -/
def raLoopF (jpeg : Nat → Nat → Nat → List Nat) (w h maxS : Nat) :
    Nat → Nat → Option (List Nat)
  | 0, _ => none
  | fuel + 1, k =>
    if d0_3 < fchain d0_7 k then
      let dims := scaledDims w h (fchain d0_7 k)
      let j := jpeg dims.1 dims.2 60
      if j.length ≤ maxS then some j else raLoopF jpeg w h maxS fuel (k + 1)
    else none

/-- `RecentImageGenerator._optimize_image_size`
(generate_missing_images_recent.py lines 211–289): PNG at maximum
compression first, then the quality/scale loop from `(95, 1.0)`, then a
final full-size JPEG at quality 30 — accepted only if it fits — then
the aggressive scale-down tail, and finally `None`. -/
def optimize_recent (png : Nat → Nat → List Nat) (jpeg : Nat → Nat → Nat → List Nat)
    (w h maxS : Nat) : Option (List Nat) :=
  let p := png w h
  if p.length ≤ maxS then some p
  else
    match roLoopF jpeg w h maxS 2000 95 0 with
    | some r => some r
    | none =>
      let j := jpeg w h 30
      if j.length ≤ maxS then some j
      else raLoopF jpeg w h maxS 100 0

/-! ## _optimize_image_size (generate_missing_images_simple.py lines 206–274) -/

/-- The simple script's JPEG quality/scale loop
(generate_missing_images_simple.py lines 219–250): quality from 85,
scale from 1.0; loop while `quality > 30 and scale_factor > 0.5` (again
the float chain reaches `0.5000000000000001`); quality drops by 10
above 60, by 5 above 45, else the scale drops by the float `0.1` with
quality reset to 75. -/
def soLoopF (jpeg : Nat → Nat → Nat → List Nat) (w h maxS : Nat) :
    Nat → Nat → Nat → Option (List Nat)
  | 0, _, _ => none
  | fuel + 1, q, k =>
    if 30 < q ∧ d0_5 < fchain 1 k then
      let dims := if fchain 1 k < 1 then scaledDims w h (fchain 1 k) else (w, h)
      let j := jpeg dims.1 dims.2 q
      if j.length ≤ maxS then some j
      else if 60 < q then soLoopF jpeg w h maxS fuel (q - 10) k
      else if 45 < q then soLoopF jpeg w h maxS fuel (q - 5) k
      else soLoopF jpeg w h maxS fuel 75 (k + 1)
    else none

/-- Candidates examined by `soLoopF`, in order. -/
def soCandsF (w h : Nat) : Nat → Nat → Nat → List Cand
  | 0, _, _ => []
  | fuel + 1, q, k =>
    if 30 < q ∧ d0_5 < fchain 1 k then
      let dims := if fchain 1 k < 1 then scaledDims w h (fchain 1 k) else (w, h)
      ⟨Fmt.jpeg, dims.1, dims.2, q⟩ ::
        (if 60 < q then soCandsF w h fuel (q - 10) k
         else if 45 < q then soCandsF w h fuel (q - 5) k
         else soCandsF w h fuel 75 (k + 1))
    else []

/-- The simple script's aggressive scale-down tail
(generate_missing_images_simple.py lines 252–267): `scale_factor`
starts at the float `0.6` and drops by the float `0.1` while above
`0.3` (scales `0.6, 0.5, 0.4, 0.30000000000000004`), at quality 70. -/
def saLoopF (jpeg : Nat → Nat → Nat → List Nat) (w h maxS : Nat) :
    Nat → Nat → Option (List Nat)
  | 0, _ => none
  | fuel + 1, k =>
    if d0_3 < fchain d0_6 k then
      let dims := scaledDims w h (fchain d0_6 k)
      let j := jpeg dims.1 dims.2 70
      if j.length ≤ maxS then some j else saLoopF jpeg w h maxS fuel (k + 1)
    else none

/-- Candidates examined by `saLoopF`, in order. -/
def saCandsF (w h : Nat) : Nat → Nat → List Cand
  | 0, _ => []
  | fuel + 1, k =>
    if d0_3 < fchain d0_6 k then
      let dims := scaledDims w h (fchain d0_6 k)
      ⟨Fmt.jpeg, dims.1, dims.2, 70⟩ :: saCandsF w h fuel (k + 1)
    else []

/-- The quality/scale loop candidates from the entry state `(85, 1.0)`. -/
def soCands (w h : Nat) : List Cand := soCandsF w h 2000 85 0

/-- The aggressive tail candidates from scale `0.6`. -/
def saCands (w h : Nat) : List Cand := saCandsF w h 100 0

/-- `SimpleImageGenerator._optimize_image_size`
(generate_missing_images_simple.py lines 206–274): PNG at maximum
compression first, then the quality/scale loop from `(85, 1.0)`, then
the aggressive tail from scale `0.6`, then `None`. -/
def optimize_simple (png : Nat → Nat → List Nat) (jpeg : Nat → Nat → Nat → List Nat)
    (w h maxS : Nat) : Option (List Nat) :=
  let p := png w h
  if p.length ≤ maxS then some p
  else
    match soLoopF jpeg w h maxS 2000 85 0 with
    | some r => some r
    | none => saLoopF jpeg w h maxS 100 0

/-- The complete candidate order of `optimize_simple`: the full-size PNG,
then the quality/scale loop's JPEGs, then the aggressive tail's. -/
def simpleCands (w h : Nat) : List Cand :=
  ⟨Fmt.png, w, h, 0⟩ :: (soCands w h ++ saCands w h)

/-! ## Aspect-ratio statement helper -/

/-- The ratio `aw : ah` matches `bw : bh` up to two pixels of
truncation in either coordinate (cross-multiplied form): one pixel from
the floor and at most one more from binary64 rounding. -/
def crossClose (aw ah bw bh : Nat) : Prop :=
  aw * bh ≤ ah * bw + 2 * (bw + bh) ∧ ah * bw ≤ aw * bh + 2 * (bw + bh)

/-! ## Concrete encoders used for witness instantiations -/

/-- A concrete 11-byte output, used as a constant encoder result. -/
def bytes11 : List Nat := List.replicate 11 0

/-- PNG encoder returning 11 bytes for every input. -/
def cPng11 : Nat → Nat → List Nat := fun _ _ => bytes11

/-- JPEG encoder returning 11 bytes for every input. -/
def cJpeg11 : Nat → Nat → Nat → List Nat := fun _ _ _ => bytes11

/-- PNG encoder returning empty output for every input. -/
def cPng0 : Nat → Nat → List Nat := fun _ _ => []

/-- JPEG encoder returning empty output for every input. -/
def cJpeg0 : Nat → Nat → Nat → List Nat := fun _ _ _ => []
-- ### Lemmas and theorems

/-- Sanity check of the split model against Python semantics. -/
theorem pySplit_example :
    pySplit '/' "events/e1/event_image.png" = ["events", "e1", "event_image.png"] := by
  decide

/-- The two recognized filename sets are disjoint, so the if/elif in the
scanner sets each flag exactly when the filename is in the matching set. -/
theorem applyFilename_spec (fn : String) (f : EventFlags) :
    applyFilename fn f =
      ⟨f.has_image || decide (fn ∈ imageNames), f.has_thumbnail || decide (fn ∈ thumbNames)⟩ := by
  unfold applyFilename
  by_cases h1 : fn ∈ imageNames
  · have h2 : fn ∉ thumbNames := by
      rcases (by simpa [imageNames] using h1 : fn = "event_image.png" ∨ fn = "event_image.jpg") with
        rfl | rfl <;> decide
    cases f
    simp [h1, h2]
  · by_cases h2 : fn ∈ thumbNames
    · cases f; simp [h1, h2]
    · cases f; simp [h1, h2]

/-- Updating an event's flags makes its lookup the updated record, with
default flags when the event was absent. -/
theorem lookupFlags_updFlags_self (eid fn : String) (l : List (String × EventFlags)) :
    lookupFlags eid (updFlags eid fn l) =
      some (applyFilename fn ((lookupFlags eid l).getD ⟨false, false⟩)) := by
  induction l with
  | nil => simp [updFlags, lookupFlags]
  | cons p rest ih =>
    obtain ⟨k, f⟩ := p
    by_cases hk : k = eid
    · subst hk; simp [updFlags, lookupFlags]
    · simp [updFlags, lookupFlags, hk, ih]

/-- Updating one event's flags leaves every other event's lookup alone. -/
theorem lookupFlags_updFlags_ne (x eid fn : String) (hne : x ≠ eid)
    (l : List (String × EventFlags)) :
    lookupFlags x (updFlags eid fn l) = lookupFlags x l := by
  have hne' : eid ≠ x := fun h => hne h.symm
  induction l with
  | nil => simp [updFlags, lookupFlags, hne']
  | cons p rest ih =>
    obtain ⟨k, f⟩ := p
    by_cases hk : k = eid
    · subst hk
      simp [updFlags, lookupFlags, hne']
    · simp [updFlags, lookupFlags, hk, ih]

/-- Keys present after an update: the updated key plus the old keys. -/
theorem mem_keys_updFlags (x eid fn : String) (l : List (String × EventFlags)) :
    x ∈ (updFlags eid fn l).map Prod.fst ↔ x = eid ∨ x ∈ l.map Prod.fst := by
  induction l with
  | nil => simp [updFlags, eq_comm]
  | cons p rest ih =>
    obtain ⟨k, f⟩ := p
    by_cases hk : k = eid
    · subst hk; simp [updFlags]
    · simp [updFlags, hk, ih]
      tauto

/-- The dict model keeps its keys distinct across updates. -/
theorem nodup_keys_updFlags (eid fn : String) (l : List (String × EventFlags))
    (h : (l.map Prod.fst).Nodup) : ((updFlags eid fn l).map Prod.fst).Nodup := by
  induction l with
  | nil => simp [updFlags]
  | cons p rest ih =>
    obtain ⟨k, f⟩ := p
    simp only [List.map_cons, List.nodup_cons] at h
    by_cases hk : k = eid
    · subst hk
      simp [updFlags, List.nodup_cons, h.1, h.2]
    · simp only [updFlags, hk, if_false, List.map_cons, List.nodup_cons]
      refine ⟨?_, ih h.2⟩
      rw [mem_keys_updFlags]
      rintro (rfl | hx)
      · exact hk rfl
      · exact h.1 hx

/-- Processing any sequence of blob names keeps the keys distinct. -/
theorem nodup_keys_foldl (names : List String) :
    ∀ acc : List (String × EventFlags), (acc.map Prod.fst).Nodup →
      ((names.foldl procBlob acc).map Prod.fst).Nodup := by
  induction names with
  | nil => intro acc h; simpa using h
  | cons n rest ih =>
    intro acc h
    rw [List.foldl_cons]
    apply ih
    have hpb : procBlob acc n =
        if 3 ≤ (pySplit '/' n).length then
          updFlags (seg (pySplit '/' n) 1) (seg (pySplit '/' n) 2) acc
        else acc := rfl
    rw [hpb]
    split
    · exact nodup_keys_updFlags _ _ _ h
    · exact h

/-- With distinct keys, association-list membership and lookup agree. -/
theorem lookup_mem_iff (l : List (String × EventFlags)) (hnd : (l.map Prod.fst).Nodup)
    (eid : String) (f : EventFlags) :
    (eid, f) ∈ l ↔ lookupFlags eid l = some f := by
  induction l with
  | nil => simp [lookupFlags]
  | cons p rest ih =>
    obtain ⟨k, g⟩ := p
    simp only [List.map_cons, List.nodup_cons] at hnd
    by_cases hk : k = eid
    · subst hk
      rw [List.mem_cons]
      unfold lookupFlags
      rw [if_pos rfl]
      constructor
      · rintro (heq | hmem)
        · injection heq with _ h2
          rw [h2]
        · exact absurd (List.mem_map_of_mem Prod.fst hmem) hnd.1
      · intro hsome
        injection hsome with h2
        exact Or.inl (by rw [h2])
    · rw [List.mem_cons]
      unfold lookupFlags
      rw [if_neg hk, ← ih hnd.2]
      constructor
      · rintro (heq | hmem)
        · exact absurd (congrArg Prod.fst heq).symm hk
        · exact hmem
      · exact Or.inr

/-- Effect of one blob name on one event's flags: a name mentioning the
event applies its filename to the (possibly default) flags; any other
name leaves the lookup unchanged. -/
theorem lookupFlags_procBlob (acc : List (String × EventFlags)) (n eid : String) :
    lookupFlags eid (procBlob acc n) =
      if mentionsEvent n eid then
        some (applyFilename (seg (pySplit '/' n) 2) ((lookupFlags eid acc).getD ⟨false, false⟩))
      else lookupFlags eid acc := by
  unfold procBlob mentionsEvent
  by_cases hlen : 3 ≤ (pySplit '/' n).length
  · simp only [hlen, if_true, decide_true_eq_true]
    by_cases hid : seg (pySplit '/' n) 1 = eid
    · rw [hid]
      simp [lookupFlags_updFlags_self]
    · simp [hid, lookupFlags_updFlags_ne _ _ _ (fun h => hid h.symm)]
  · simp [hlen]

/-- Characterization of the scanner fold: an event's flags after the scan
are the pointwise disjunction of the contributions of all names, and an
event is present exactly when some name mentions it. -/
theorem scan_fold_char (names : List String) :
    ∀ (acc : List (String × EventFlags)) (eid : String),
      lookupFlags eid (names.foldl procBlob acc) =
        match lookupFlags eid acc with
        | some f =>
            some ⟨f.has_image || names.any (fun n => givesImage n eid),
                  f.has_thumbnail || names.any (fun n => givesThumb n eid)⟩
        | none =>
            if names.any (fun n => mentionsEvent n eid) then
              some ⟨names.any (fun n => givesImage n eid),
                    names.any (fun n => givesThumb n eid)⟩
            else none := by
  induction names with
  | nil =>
    intro acc eid
    cases h : lookupFlags eid acc with
    | none => simp [h]
    | some f => cases f; simp [h]
  | cons n rest ih =>
    intro acc eid
    rw [List.foldl_cons, ih]
    rw [lookupFlags_procBlob]
    have hgi : givesImage n eid = (mentionsEvent n eid && decide (seg (pySplit '/' n) 2 ∈ imageNames)) := rfl
    have hgt : givesThumb n eid = (mentionsEvent n eid && decide (seg (pySplit '/' n) 2 ∈ thumbNames)) := rfl
    by_cases hm : mentionsEvent n eid
    · rw [if_pos hm, applyFilename_spec]
      cases h : lookupFlags eid acc with
      | none =>
        simp [hgi, hgt, hm, Bool.or_assoc]
      | some f =>
        simp [hgi, hgt, hm, Bool.or_assoc]
    · rw [if_neg hm]
      have hm' : mentionsEvent n eid = false := by simpa using hm
      cases h : lookupFlags eid acc with
      | none => simp [hgi, hgt, hm']
      | some f => simp [hgi, hgt, hm']

/-- Membership in the scanner's selection, via the flags of the scanned
dict: selected events are exactly those whose record has `has_image` set
and `has_thumbnail` clear. -/
theorem mem_needing_iff (names : List String) (eid : String) :
    eid ∈ get_events_needing_thumbnails names ↔
      ∃ f : EventFlags, lookupFlags eid (scanEvents names) = some f ∧
        f.has_image = true ∧ f.has_thumbnail = false := by
  have hnd : ((scanEvents names).map Prod.fst).Nodup :=
    nodup_keys_foldl names [] (by simp)
  unfold get_events_needing_thumbnails
  simp only [List.mem_map, List.mem_filter]
  constructor
  · rintro ⟨⟨k, f⟩, ⟨hmem, hpred⟩, rfl⟩
    refine ⟨f, (lookup_mem_iff _ hnd _ _).mp hmem, ?_, ?_⟩
    · exact (Bool.and_eq_true _ _).mp hpred |>.1
    · simpa using (Bool.and_eq_true _ _).mp hpred |>.2
  · rintro ⟨f, hlk, hi, ht⟩
    exact ⟨(eid, f), ⟨(lookup_mem_iff _ hnd _ _).mpr hlk, by simp [hi, ht]⟩, rfl⟩

/-- C3: the bucket scanner groups blob names with at least three
'/'-segments by their second segment, ignoring shorter names; an event's
`has_image` flag is set exactly when some name of its group has third
segment among the image filenames, `has_thumbnail` likewise for the
thumbnail filenames; the selected events are exactly those with an image
and no thumbnail.  On the listing
events/e1/event_image.png, events/e2/event_image.png,
events/e2/event_thumbnail.png, exactly e1 is selected. -/
theorem scanner_classification (names : List String) (eid : String) :
    (lookupFlags eid (scanEvents names) =
      if names.any (fun n => mentionsEvent n eid) then
        some ⟨names.any (fun n => givesImage n eid), names.any (fun n => givesThumb n eid)⟩
      else none)
    ∧ (eid ∈ get_events_needing_thumbnails names ↔
        names.any (fun n => givesImage n eid) = true ∧
          names.any (fun n => givesThumb n eid) = false)
    ∧ get_events_needing_thumbnails
        ["events/e1/event_image.png", "events/e2/event_image.png",
         "events/e2/event_thumbnail.png"] = ["e1"] := by
  have hchar : lookupFlags eid (scanEvents names) =
      if names.any (fun n => mentionsEvent n eid) then
        some ⟨names.any (fun n => givesImage n eid), names.any (fun n => givesThumb n eid)⟩
      else none := by
    have := scan_fold_char names [] eid
    simpa [scanEvents, lookupFlags] using this
  refine ⟨hchar, ?_, by decide⟩
  rw [mem_needing_iff]
  constructor
  · rintro ⟨f, hlk, hi, ht⟩
    rw [hchar] at hlk
    by_cases hm : names.any (fun n => mentionsEvent n eid)
    · rw [if_pos hm] at hlk
      injection hlk with hf
      rw [← hf] at hi ht
      exact ⟨hi, ht⟩
    · rw [if_neg hm] at hlk
      exact absurd hlk (by simp)
  · rintro ⟨hi, ht⟩
    have hm : names.any (fun n => mentionsEvent n eid) = true := by
      rcases List.any_eq_true.mp hi with ⟨n, hn, hgi⟩
      exact List.any_eq_true.mpr ⟨n, hn, (Bool.and_eq_true _ _).mp hgi |>.1⟩
    exact ⟨⟨true, false⟩, by rw [hchar, if_pos hm, hi, ht], rfl, rfl⟩

/-- C4 (amended): the two uploaders that sniff — `upload_thumbnail` in
generate_thumbnails.py and `upload_image` in
generate_missing_images_simple.py — assign content type `image/jpeg`
exactly on a JPEG start-of-image prefix and `image/png` otherwise; the
uploaders of generate_missing_images.py, generate_missing_images_recent.py
and generate_missing_images_limited.py assign `image/png` to every byte
string, JPEG-prefixed or not. -/
theorem upload_content_types (d rest : List Nat) (hd : d = 0xFF :: 0xD8 :: 0xFF :: rest) :
    upload_content_type_thumbnails d = "image/jpeg"
    ∧ upload_content_type_simple d = "image/jpeg"
    ∧ upload_content_type_missing d = "image/png"
    ∧ upload_content_type_recent d = "image/png"
    ∧ upload_content_type_limited d = "image/png"
    ∧ ∀ d' : List Nat, ¬ jpegMagic.isPrefixOf d' →
        upload_content_type_thumbnails d' = "image/png" ∧
          upload_content_type_simple d' = "image/png" := by
  subst hd
  have hpre : jpegMagic.isPrefixOf (0xFF :: 0xD8 :: 0xFF :: rest) = true := by
    simp [jpegMagic, List.isPrefixOf]
  refine ⟨?_, ?_, rfl, rfl, rfl, ?_⟩
  · simp [upload_content_type_thumbnails, hpre]
  · simp [upload_content_type_simple, hpre]
  · intro d' hnp
    simp [upload_content_type_thumbnails, upload_content_type_simple, hnp]

/-- Witness for `upload_content_types` at the three-byte JPEG marker. -/
theorem upload_content_types_witness :
    upload_content_type_thumbnails [0xFF, 0xD8, 0xFF] = "image/jpeg"
    ∧ upload_content_type_simple [0xFF, 0xD8, 0xFF] = "image/jpeg"
    ∧ upload_content_type_missing [0xFF, 0xD8, 0xFF] = "image/png"
    ∧ upload_content_type_recent [0xFF, 0xD8, 0xFF] = "image/png"
    ∧ upload_content_type_limited [0xFF, 0xD8, 0xFF] = "image/png"
    ∧ ∀ d' : List Nat, ¬ jpegMagic.isPrefixOf d' →
        upload_content_type_thumbnails d' = "image/png" ∧
          upload_content_type_simple d' = "image/png" :=
  upload_content_types [0xFF, 0xD8, 0xFF] [] rfl

/-- C4 counterexample: the uploader of generate_missing_images.py gives
JPEG-prefixed bytes the content type `image/png`, not `image/jpeg`. -/
theorem upload_content_type_missing_jpeg_bytes :
    upload_content_type_missing [0xFF, 0xD8, 0xFF] = "image/png" ∧
      "image/png" ≠ "image/jpeg" :=
  ⟨rfl, by decide⟩

/-- C10: both uploaders write under an object name ending in `.png` for
every byte string, including JPEG-encoded ones — in that case the stored
content type is `image/jpeg` while the name still ends in `.png`. -/
theorem upload_object_names (collection eid : String) (d : List Nat) :
    upload_thumbnail collection eid d =
      ((collection ++ "/" ++ eid ++ "/event_thumbnail") ++ ".png",
        upload_content_type_thumbnails d)
    ∧ upload_image_simple collection eid d =
      ((collection ++ "/" ++ eid ++ "/event_image") ++ ".png",
        upload_content_type_simple d)
    ∧ upload_thumbnail collection eid (0xFF :: 0xD8 :: 0xFF :: d) =
      ((collection ++ "/" ++ eid ++ "/event_thumbnail") ++ ".png", "image/jpeg") := by
  have h1 : thumbnail_blob_path collection eid =
      (collection ++ "/" ++ eid ++ "/event_thumbnail") ++ ".png" := by
    unfold thumbnail_blob_path
    rw [String.append_assoc (collection ++ "/" ++ eid) "/event_thumbnail" ".png"]
    rfl
  have h2 : image_blob_path collection eid =
      (collection ++ "/" ++ eid ++ "/event_image") ++ ".png" := by
    unfold image_blob_path
    rw [String.append_assoc (collection ++ "/" ++ eid) "/event_image" ".png"]
    rfl
  have hpre : jpegMagic.isPrefixOf (0xFF :: 0xD8 :: 0xFF :: d) = true := by
    simp [jpegMagic, List.isPrefixOf]
  refine ⟨?_, ?_, ?_⟩
  · simp [upload_thumbnail, h1]
  · simp [upload_image_simple, h2]
  · simp [upload_thumbnail, h1, upload_content_type_thumbnails, hpre]

/-- Unfolding of one `process_event` run: the returned flag is the
end-to-end success of the three stages, a success increments only
`processed_count`, and any stage failure increments only `error_count`,
by exactly one. -/
theorem process_event_eq (dl : String → Option (List Nat)) (mk : List Nat → Option (List Nat))
    (up : String → List Nat → Bool) (c : Counters) (eid : String) :
    process_event dl mk up c eid =
      (eventSucceeds dl mk up eid,
        { processed := c.processed + (if eventSucceeds dl mk up eid then 1 else 0),
          skipped := c.skipped,
          error := c.error + (if eventSucceeds dl mk up eid then 0 else 1) }) := by
  unfold process_event eventSucceeds
  cases h1 : pyFalsy (dl eid) <;>
    cases h2 : pyFalsy (mk ((dl eid).getD [])) <;>
      cases h3 : up eid ((mk ((dl eid).getD [])).getD []) <;>
        simp [h1, h2, h3]

/-- Counter accounting over a whole batch: every event contributes one
increment, to `processed_count` on success and to `error_count` on
failure, independently of the other events; `skipped_count` is untouched. -/
theorem runBatch_eq (dl : String → Option (List Nat)) (mk : List Nat → Option (List Nat))
    (up : String → List Nat → Bool) (events : List String) :
    ∀ c : Counters, runBatch dl mk up c events =
      { processed := c.processed + events.countP (fun e => eventSucceeds dl mk up e),
        skipped := c.skipped,
        error := c.error + events.countP (fun e => !eventSucceeds dl mk up e) } := by
  induction events with
  | nil => intro c; cases c; simp [runBatch]
  | cons e rest ih =>
    intro c
    have hstep : runBatch dl mk up c (e :: rest) =
        runBatch dl mk up (process_event dl mk up c e).2 rest := by
      simp [runBatch]
    rw [hstep, process_event_eq, ih]
    cases h : eventSucceeds dl mk up e <;>
      simp [List.countP_cons, h] <;> omega

/-- C8: a failure at any stage of one event's pipeline makes
`process_event` return `False` with `error_count` incremented by exactly
one (and `processed_count` untouched); a success returns `True` with
`processed_count` incremented.  Over a batch, every event is processed
and counted regardless of the other events' outcomes: the final counters
add one success-count and one failure-count per event of the batch. -/
theorem per_event_failure_isolation (dl : String → Option (List Nat))
    (mk : List Nat → Option (List Nat)) (up : String → List Nat → Bool)
    (c : Counters) (eid : String) (events : List String) :
    process_event dl mk up c eid =
      (eventSucceeds dl mk up eid,
        { processed := c.processed + (if eventSucceeds dl mk up eid then 1 else 0),
          skipped := c.skipped,
          error := c.error + (if eventSucceeds dl mk up eid then 0 else 1) })
    ∧ runBatch dl mk up c events =
      { processed := c.processed + events.countP (fun e => eventSucceeds dl mk up e),
        skipped := c.skipped,
        error := c.error + events.countP (fun e => !eventSucceeds dl mk up e) }
    ∧ events.countP (fun e => eventSucceeds dl mk up e) +
        events.countP (fun e => !eventSucceeds dl mk up e) = events.length :=
  ⟨process_event_eq dl mk up c eid, runBatch_eq dl mk up events c, by
    induction events with
    | nil => simp
    | cons e rest ih =>
      cases h : eventSucceeds dl mk up e <;> simp [List.countP_cons, h] <;> omega⟩

/-- C9: `skipped_count` starts at zero in `__init__` and no pipeline
stage ever increments it, so the final summary's skipped count is zero
after any batch. -/
theorem skipped_count_zero (dl : String → Option (List Nat))
    (mk : List Nat → Option (List Nat)) (up : String → List Nat → Bool)
    (events : List String) :
    initCounters.skipped = 0
    ∧ (∀ c : Counters, (runBatch dl mk up c events).skipped = c.skipped)
    ∧ (runBatch dl mk up initCounters events).skipped = 0 := by
  refine ⟨rfl, fun c => ?_, ?_⟩
  · rw [runBatch_eq]
  · rw [runBatch_eq]
    rfl

/-- Every element of an insertion is the new element or an old one. -/
theorem mem_insertDesc (x y : String × Nat) (l : List (String × Nat)) :
    y ∈ insertDesc x l ↔ y = x ∨ y ∈ l := by
  induction l with
  | nil => simp [insertDesc]
  | cons z zs ih =>
    unfold insertDesc
    split
    · simp [or_comm, or_left_comm]
    · simp [ih]
      tauto

/-- Insertion produces a permutation of consing. -/
theorem insertDesc_perm (x : String × Nat) (l : List (String × Nat)) :
    List.Perm (insertDesc x l) (x :: l) := by
  induction l with
  | nil => simp [insertDesc]
  | cons z zs ih =>
    unfold insertDesc
    split
    · exact List.Perm.refl _
    · exact (ih.cons z).trans (List.Perm.swap x z zs)

/-- The stable descending sort permutes its input. -/
theorem sortDesc_perm (l : List (String × Nat)) : List.Perm (sortDesc l) l := by
  induction l with
  | nil => simp [sortDesc]
  | cons x xs ih =>
    exact (insertDesc_perm x (sortDesc xs)).trans (ih.cons x)

/-- Insertion preserves the descending-by-date pairwise order. -/
theorem insertDesc_pairwise (x : String × Nat) (l : List (String × Nat))
    (h : l.Pairwise (fun a b => b.2 ≤ a.2)) :
    (insertDesc x l).Pairwise (fun a b => b.2 ≤ a.2) := by
  induction l with
  | nil => simp [insertDesc]
  | cons y ys ih =>
    rw [List.pairwise_cons] at h
    unfold insertDesc
    split
    · rename_i hle
      rw [List.pairwise_cons]
      refine ⟨?_, List.pairwise_cons.mpr h⟩
      intro z hz
      rcases List.mem_cons.mp hz with rfl | hz'
      · exact hle
      · exact le_trans (h.1 z hz') hle
    · rename_i hgt
      rw [List.pairwise_cons]
      refine ⟨?_, ih h.2⟩
      intro z hz
      rcases (mem_insertDesc x z ys).mp hz with rfl | hz'
      · exact le_of_not_le hgt
      · exact h.1 z hz'

/-- The stable descending sort is sorted: dates never increase along it. -/
theorem sortDesc_sorted (l : List (String × Nat)) :
    (sortDesc l).Pairwise (fun a b => b.2 ≤ a.2) := by
  induction l with
  | nil => simp [sortDesc]
  | cons x xs ih => exact insertDesc_pairwise x (sortDesc xs) ih

/-- C7: the limited script's selection sorts the candidates — events with
a thumbnail, no image and a present timestamp — by timestamp descending
(stably) and returns exactly the first `min K, number-of-candidates` of
them, newest first. -/
theorem topk_newest_selection (events : List (String × LRec)) (K : Nat) :
    get_events_needing_images_limited events K =
      ((sortDesc (limitedCandidates events)).take K).map Prod.fst
    ∧ (get_events_needing_images_limited events K).length =
        min K (limitedCandidates events).length
    ∧ (sortDesc (limitedCandidates events)).Pairwise (fun a b => b.2 ≤ a.2)
    ∧ List.Perm (sortDesc (limitedCandidates events)) (limitedCandidates events) := by
  refine ⟨rfl, ?_, sortDesc_sorted _, sortDesc_perm _⟩
  unfold get_events_needing_images_limited
  rw [List.length_map, List.length_take, (sortDesc_perm (limitedCandidates events)).length_eq]

/-- Bracketing of the fueled base-2 logarithm. -/
theorem log2Aux_spec : ∀ fuel n, 1 ≤ n → n ≤ fuel →
    2 ^ log2Aux fuel n ≤ n ∧ n < 2 ^ (log2Aux fuel n + 1) := by
  intro fuel
  induction fuel with
  | zero => intro n h1 h2; omega
  | succ fuel ih =>
    intro n h1 h2
    unfold log2Aux
    by_cases hn : n ≤ 1
    · have hn1 : n = 1 := by omega
      subst hn1
      simp
    · rw [if_neg hn]
      have hrec := ih (n / 2) (by omega) (by omega)
      constructor
      · calc 2 ^ (log2Aux fuel (n / 2) + 1) = 2 ^ log2Aux fuel (n / 2) * 2 := by rw [pow_succ]
          _ ≤ n / 2 * 2 := Nat.mul_le_mul_right 2 hrec.1
          _ ≤ n := by omega
      · have h3 : n / 2 + 1 ≤ 2 ^ (log2Aux fuel (n / 2) + 1) := hrec.2
        calc n < (n / 2 + 1) * 2 := by omega
          _ ≤ 2 ^ (log2Aux fuel (n / 2) + 1) * 2 := Nat.mul_le_mul_right 2 h3
          _ = 2 ^ (log2Aux fuel (n / 2) + 1 + 1) := by rw [pow_succ _ (log2Aux fuel (n / 2) + 1)]

/-- Bracketing of `natLog2`. -/
theorem natLog2_spec (n : Nat) (h : 1 ≤ n) :
    2 ^ natLog2 n ≤ n ∧ n < 2 ^ (natLog2 n + 1) :=
  log2Aux_spec n n h le_rfl

/-- Round-to-nearest error of `rneDiv`: at most half a unit. -/
theorem rneDiv_err (x y : Nat) (hy : 0 < y) :
    |((rneDiv x y : Nat) : ℚ) - (x : ℚ) / y| ≤ 1 / 2 := by
  have hy' : (0 : ℚ) < y := by exact_mod_cast hy
  have hdm : y * (x / y) + x % y = x := Nat.div_add_mod x y
  have hmod : x % y < y := Nat.mod_lt x hy
  have hxq : (x : ℚ) = (y : ℚ) * ((x / y : Nat) : ℚ) + ((x % y : Nat) : ℚ) := by
    exact_mod_cast hdm.symm
  have hxy : (x : ℚ) / y = ((x / y : Nat) : ℚ) + ((x % y : Nat) : ℚ) / y := by
    rw [hxq]
    field_simp
    ring
  have hr0 : (0 : ℚ) ≤ ((x % y : Nat) : ℚ) / y := by positivity
  have hr1 : ((x % y : Nat) : ℚ) / y ≤ 1 := by
    rw [div_le_one hy']
    exact_mod_cast le_of_lt hmod
  have hcase_lo : 2 * (x % y) ≤ y → ((x % y : Nat) : ℚ) / y ≤ 1 / 2 := by
    intro hA
    rw [div_le_div_iff₀ hy' (by norm_num : (0 : ℚ) < 2)]
    have : (x % y) * 2 ≤ 1 * y := by omega
    exact_mod_cast this
  have hcase_hi : y ≤ 2 * (x % y) → (1 : ℚ) / 2 ≤ ((x % y : Nat) : ℚ) / y := by
    intro hB
    rw [div_le_div_iff₀ (by norm_num : (0 : ℚ) < 2) hy']
    have : 1 * y ≤ (x % y) * 2 := by omega
    exact_mod_cast this
  unfold rneDiv
  by_cases h1 : 2 * (x % y) < y
  · rw [if_pos h1, hxy]
    have heq : ((x / y : Nat) : ℚ) - (((x / y : Nat) : ℚ) + ((x % y : Nat) : ℚ) / y)
        = -(((x % y : Nat) : ℚ) / y) := by ring
    rw [heq, abs_neg, abs_of_nonneg hr0]
    exact hcase_lo (le_of_lt h1)
  · rw [if_neg h1]
    have hval : |(((x / y + 1 : Nat)) : ℚ) - (x : ℚ) / y| ≤ 1 / 2 := by
      rw [hxy]
      have heq : (((x / y + 1 : Nat)) : ℚ) - (((x / y : Nat) : ℚ) + ((x % y : Nat) : ℚ) / y)
          = 1 - ((x % y : Nat) : ℚ) / y := by push_cast; ring
      rw [heq, abs_of_nonneg (by linarith)]
      have := hcase_hi (by omega)
      linarith
    by_cases h2 : y < 2 * (x % y)
    · rw [if_pos h2]
      exact hval
    · rw [if_neg h2]
      by_cases h3 : x / y % 2 = 0
      · rw [if_pos h3, hxy]
        have heq : ((x / y : Nat) : ℚ) - (((x / y : Nat) : ℚ) + ((x % y : Nat) : ℚ) / y)
            = -(((x % y : Nat) : ℚ) / y) := by ring
        rw [heq, abs_neg, abs_of_nonneg hr0]
        exact hcase_lo (by omega)
      · rw [if_neg h3]
        exact hval

/-- `rneDiv` is exact on exact divisions. -/
theorem rneDiv_exact (x y : Nat) (hy : 0 < y) (hdvd : y ∣ x) :
    ((rneDiv x y : Nat) : ℚ) = (x : ℚ) / y := by
  obtain ⟨c, rfl⟩ := hdvd
  have hy' : (0 : ℚ) < y := by exact_mod_cast hy
  unfold rneDiv
  rw [Nat.mul_div_cancel_left c hy, Nat.mul_mod_right]
  rw [if_pos (by omega)]
  rw [eq_div_iff (ne_of_gt hy')]
  push_cast
  ring

/-- `ratLog2` never exceeds the difference of the integer logarithms. -/
theorem ratLog2_le_sub (a b : Nat) :
    ratLog2 a b ≤ (natLog2 a : Int) - natLog2 b := by
  simp only [ratLog2]
  split <;> split <;> omega

/-- `ratLog2` stays at most 52 whenever the value is at most `2^42`. -/
theorem ratLog2_le52 (a b : Nat) (ha : 0 < a) (hb : 0 < b) (hx : a ≤ 2 ^ 42 * b) :
    ratLog2 a b ≤ 52 := by
  have hsa := natLog2_spec a ha
  have hsb := natLog2_spec b hb
  unfold ratLog2
  by_cases hord : natLog2 b ≤ natLog2 a
  · rw [if_pos hord]
    by_cases htest : b * 2 ^ (natLog2 a - natLog2 b) ≤ a
    · rw [if_pos htest]
      have h1 : b * 2 ^ (natLog2 a - natLog2 b) ≤ b * 2 ^ 42 := by
        calc b * 2 ^ (natLog2 a - natLog2 b) ≤ 2 ^ 42 * b := le_trans htest hx
          _ = b * 2 ^ 42 := Nat.mul_comm _ _
      have h2 : 2 ^ (natLog2 a - natLog2 b) ≤ 2 ^ 42 :=
        Nat.le_of_mul_le_mul_left h1 hb
      have h3 : natLog2 a - natLog2 b ≤ 42 :=
        (Nat.pow_le_pow_iff_right (by norm_num)).mp h2
      omega
    · rw [if_neg htest]
      have h1 : 2 ^ natLog2 a ≤ a := hsa.1
      have h2 : b < 2 ^ (natLog2 b + 1) := hsb.2
      have h3 : a < 2 ^ (43 + natLog2 b) := by
        calc a ≤ 2 ^ 42 * b := hx
          _ < 2 ^ 42 * 2 ^ (natLog2 b + 1) := by
              exact mul_lt_mul_of_pos_left h2 (by positivity)
          _ = 2 ^ (43 + natLog2 b) := by rw [← pow_add]; ring_nf
      have h4 : natLog2 a < 43 + natLog2 b := by
        by_contra hcon
        push_neg at hcon
        have : (2:Nat) ^ (43 + natLog2 b) ≤ 2 ^ natLog2 a :=
          Nat.pow_le_pow_right (by norm_num) hcon
        omega
      omega
  · rw [if_neg hord]
    split <;> omega

/-- Multiplicative lower bracket of `ratLog2`: scaling `a / b` by
`2 ^ (52 - ratLog2 a b)` lands at or above `2^52`. -/
theorem ratLog2_lower (a b : Nat) (ha : 0 < a) (hb : 0 < b) (hE : ratLog2 a b ≤ 52) :
    b * 2 ^ 52 ≤ a * 2 ^ (52 - ratLog2 a b).toNat := by
  have hsa := natLog2_spec a ha
  have hsb := natLog2_spec b hb
  set la := natLog2 a with hla
  set lb := natLog2 b with hlb
  by_cases hord : lb ≤ la
  · by_cases htest : b * 2 ^ (la - lb) ≤ a
    · have hEeq : ratLog2 a b = (la : Int) - lb := by
        simp only [ratLog2, ← hla, ← hlb]
        rw [if_pos hord, if_pos htest]
      have hle : la - lb ≤ 52 := by omega
      have hT : (52 - ratLog2 a b).toNat = 52 - (la - lb) := by omega
      rw [hT]
      calc b * 2 ^ 52 = b * 2 ^ (la - lb) * 2 ^ (52 - (la - lb)) := by
            rw [mul_assoc, ← pow_add]
            congr 2
            omega
        _ ≤ a * 2 ^ (52 - (la - lb)) := Nat.mul_le_mul_right _ htest
    · have hEeq : ratLog2 a b = (la : Int) - lb - 1 := by
        simp only [ratLog2, ← hla, ← hlb]
        rw [if_pos hord, if_neg htest]
      have hle : la - lb ≤ 53 := by omega
      have hT : (52 - ratLog2 a b).toNat = 53 - (la - lb) := by omega
      rw [hT]
      have hstep : b * 2 ^ 52 < 2 ^ (lb + 53) := by
        calc b * 2 ^ 52 < 2 ^ (lb + 1) * 2 ^ 52 := mul_lt_mul_of_pos_right hsb.2 (by positivity)
          _ = 2 ^ (lb + 53) := by rw [← pow_add]
      have hstep2 : 2 ^ (lb + 53) ≤ a * 2 ^ (53 - (la - lb)) := by
        calc (2:Nat) ^ (lb + 53) = 2 ^ la * 2 ^ (53 - (la - lb)) := by
              rw [← pow_add]
              congr 1
              omega
          _ ≤ a * 2 ^ (53 - (la - lb)) := Nat.mul_le_mul_right _ hsa.1
      omega
  · push_neg at hord
    by_cases htest : b ≤ a * 2 ^ (lb - la)
    · have hEeq : ratLog2 a b = (la : Int) - lb := by
        simp only [ratLog2, ← hla, ← hlb]
        rw [if_neg (by omega : ¬ lb ≤ la), if_pos htest]
      have hT : (52 - ratLog2 a b).toNat = 52 + (lb - la) := by omega
      rw [hT]
      calc b * 2 ^ 52 ≤ a * 2 ^ (lb - la) * 2 ^ 52 := Nat.mul_le_mul_right _ htest
        _ = a * 2 ^ (52 + (lb - la)) := by rw [mul_assoc, ← pow_add]; ring_nf
    · have hEeq : ratLog2 a b = (la : Int) - lb - 1 := by
        simp only [ratLog2, ← hla, ← hlb]
        rw [if_neg (by omega : ¬ lb ≤ la), if_neg htest]
      have hT : (52 - ratLog2 a b).toNat = 53 + (lb - la) := by omega
      rw [hT]
      have hstep : b * 2 ^ 52 < 2 ^ (lb + 53) := by
        calc b * 2 ^ 52 < 2 ^ (lb + 1) * 2 ^ 52 := mul_lt_mul_of_pos_right hsb.2 (by positivity)
          _ = 2 ^ (lb + 53) := by rw [← pow_add]
      have hstep2 : 2 ^ (lb + 53) ≤ a * 2 ^ (53 + (lb - la)) := by
        calc (2:Nat) ^ (lb + 53) = 2 ^ la * 2 ^ (53 + (lb - la)) := by
              rw [← pow_add]
              congr 1
              omega
          _ ≤ a * 2 ^ (53 + (lb - la)) := Nat.mul_le_mul_right _ hsa.1
      omega

/-- `floatRoundPos` always yields a nonnegative value. -/
theorem floatRoundPos_nonneg (a b : Nat) : 0 ≤ floatRoundPos a b := by
  simp only [floatRoundPos]
  split <;> positivity

/-- Rounding a nonpositive value never yields a positive one. -/
theorem floatRound_nonpos (x : ℚ) (hx : x ≤ 0) : floatRound x ≤ 0 := by
  by_cases h0 : x = 0
  · simp [floatRound, h0]
  · rw [floatRound, if_neg h0, if_neg (not_lt.mpr hx)]
    exact neg_nonpos.mpr (floatRoundPos_nonneg _ _)

/-- Relative rounding error of `floatRoundPos`: at most `2^-52` of the
value, for values up to `2^42`. -/
theorem floatRoundPos_err (a b : Nat) (ha : 0 < a) (hb : 0 < b) (hx : a ≤ 2 ^ 42 * b) :
    |floatRoundPos a b - (a : ℚ) / b| ≤ ((a : ℚ) / b) / 2 ^ 52 := by
  have hE := ratLog2_le52 a b ha hb hx
  have hp : (0 : Int) ≤ 52 - ratLog2 a b := by omega
  have hlow := ratLog2_lower a b ha hb hE
  set p := (52 - ratLog2 a b).toNat with hpdef
  have hb' : (0 : ℚ) < b := by exact_mod_cast hb
  have h2p : (0 : ℚ) < (2 : ℚ) ^ p := by positivity
  have herr := rneDiv_err (a * 2 ^ p) b hb
  simp only [floatRoundPos]
  rw [← hpdef, if_pos hp]
  have hcast : ((a * 2 ^ p : Nat) : ℚ) = (a : ℚ) * 2 ^ p := by push_cast; ring
  have key : |((rneDiv (a * 2 ^ p) b : Nat) : ℚ) / 2 ^ p - (a : ℚ) / b|
      ≤ (1 / 2) / 2 ^ p := by
    have hrw : ((rneDiv (a * 2 ^ p) b : Nat) : ℚ) / 2 ^ p - (a : ℚ) / b
        = (((rneDiv (a * 2 ^ p) b : Nat) : ℚ) - ((a * 2 ^ p : Nat) : ℚ) / b) / 2 ^ p := by
      rw [hcast]
      field_simp
      ring
    rw [hrw, abs_div, abs_of_pos h2p]
    gcongr
  have hgeo : (2 : ℚ) ^ 52 ≤ (a : ℚ) / b * 2 ^ p := by
    rw [div_mul_eq_mul_div, le_div_iff₀ hb']
    calc (2 : ℚ) ^ 52 * b = ((b * 2 ^ 52 : Nat) : ℚ) := by push_cast; ring
      _ ≤ ((a * 2 ^ p : Nat) : ℚ) := by exact_mod_cast hlow
      _ = (a : ℚ) * 2 ^ p := hcast
  have hfin : (1 / 2 : ℚ) / 2 ^ p ≤ ((a : ℚ) / b) / 2 ^ 52 := by
    rw [div_le_div_iff₀ h2p (by positivity)]
    calc (1 / 2 : ℚ) * 2 ^ 52 ≤ 2 ^ 52 := by norm_num
      _ ≤ (a : ℚ) / b * 2 ^ p := hgeo
  exact le_trans key hfin

/-- Relative rounding error of `floatRound` on positive values up to
`2^42`: the result is within `x / 2^52` of `x`. -/
theorem floatRound_err (x : ℚ) (hx : 0 < x) (hx42 : x ≤ 2 ^ 42) :
    |floatRound x - x| ≤ x / 2 ^ 52 := by
  have hne : x ≠ 0 := ne_of_gt hx
  rw [floatRound, if_neg hne, if_pos hx]
  have hnum : 0 < x.num := Rat.num_pos.mpr hx
  have hden : 0 < x.den := x.den_pos
  have hnum' : 0 < x.num.toNat := by omega
  have hnum_cast : ((x.num.toNat : Nat) : ℚ) = (x.num : ℚ) := by
    exact_mod_cast congrArg (Int.cast : ℤ → ℚ) (Int.toNat_of_nonneg hnum.le)
  have hxab : x = ((x.num.toNat : Nat) : ℚ) / ((x.den : Nat) : ℚ) := by
    rw [hnum_cast, Rat.num_div_den]
  have hden' : (0 : ℚ) < (x.den : ℚ) := by exact_mod_cast hden
  have hcond : x.num.toNat ≤ 2 ^ 42 * x.den := by
    have h1 := hx42
    rw [hxab, div_le_iff₀ hden'] at h1
    exact_mod_cast h1
  have hmain := floatRoundPos_err x.num.toNat x.den hnum' hden hcond
  rw [← hxab] at hmain
  exact hmain

/-- Two-sided form of the rounding error. -/
theorem floatRound_bounds (x : ℚ) (hx : 0 < x) (hx42 : x ≤ 2 ^ 42) :
    x - x / 2 ^ 52 ≤ floatRound x ∧ floatRound x ≤ x + x / 2 ^ 52 := by
  have h := abs_le.mp (floatRound_err x hx hx42)
  constructor <;> linarith [h.1, h.2]

/-- `floatRoundPos` is exact on dyadics with a significand below `2^53`. -/
theorem floatRoundPos_dyadic (a m : Nat) (ha : 0 < a) (ha53 : a < 2 ^ 53) :
    floatRoundPos a (2 ^ m) = (a : ℚ) / 2 ^ m := by
  have hb : (0 : Nat) < 2 ^ m := by positivity
  have hla : natLog2 a ≤ 52 := by
    have h1 := (natLog2_spec a ha).1
    by_contra hcon
    push_neg at hcon
    have h2 : (2 : Nat) ^ 53 ≤ 2 ^ natLog2 a := Nat.pow_le_pow_right (by norm_num) hcon
    omega
  have hE : ratLog2 a (2 ^ m) ≤ 52 := by
    have h1 := ratLog2_le_sub a (2 ^ m)
    omega
  have hp : (0 : Int) ≤ 52 - ratLog2 a (2 ^ m) := by omega
  have hlow := ratLog2_lower a (2 ^ m) ha hb hE
  set p := (52 - ratLog2 a (2 ^ m)).toNat with hpdef
  have hmp : m ≤ p := by
    by_contra hcon
    push_neg at hcon
    have h1 : (2 : Nat) ^ m * 2 ^ 52 ≤ a * 2 ^ p := hlow
    have h2 : a * 2 ^ p < 2 ^ 53 * 2 ^ p := mul_lt_mul_of_pos_right ha53 (by positivity)
    have h3 : (2 : Nat) ^ m * 2 ^ 52 = 2 ^ (m + 52) := by rw [← pow_add]
    have h4 : (2 : Nat) ^ 53 * 2 ^ p = 2 ^ (53 + p) := by rw [← pow_add]
    have h5 : (2 : Nat) ^ (m + 52) < 2 ^ (53 + p) := by omega
    have h6 : m + 52 < 53 + p := by
      by_contra hc2
      push_neg at hc2
      have h7 : (2 : Nat) ^ (53 + p) ≤ 2 ^ (m + 52) := Nat.pow_le_pow_right (by norm_num) hc2
      omega
    omega
  have hdvd : (2 ^ m : Nat) ∣ a * 2 ^ p := Dvd.dvd.mul_left (pow_dvd_pow 2 hmp) a
  simp only [floatRoundPos]
  rw [← hpdef, if_pos hp, rneDiv_exact _ _ hb hdvd]
  push_cast
  rw [div_div]
  rw [div_eq_div_iff (by positivity) (by positivity)]
  rw [← pow_add]
  ring_nf

/-- `floatRound` is exact on dyadics `c / 2^m` with `c < 2^53`. -/
theorem floatRound_dyadic (c m : Nat) (hc : 0 < c) (hc53 : c < 2 ^ 53) :
    floatRound ((c : ℚ) / 2 ^ m) = (c : ℚ) / 2 ^ m := by
  set x : ℚ := (c : ℚ) / 2 ^ m with hxdef
  have hxpos : 0 < x := by rw [hxdef]; positivity
  rw [floatRound, if_neg (ne_of_gt hxpos), if_pos hxpos]
  have hden_dvd : (x.den : Int) ∣ ((2 ^ m : Nat) : Int) := by
    have h1 : x = Rat.divInt (c : Int) (((2 ^ m : Nat) : Int)) := by
      rw [Rat.divInt_eq_div, hxdef]
      push_cast
      ring
    rw [h1]
    exact Rat.den_dvd _ _
  have hden_dvd' : x.den ∣ 2 ^ m := Int.ofNat_dvd.mp hden_dvd
  obtain ⟨m', hm', hdeq⟩ := (Nat.dvd_prime_pow Nat.prime_two).mp hden_dvd'
  have hnum : 0 < x.num := Rat.num_pos.mpr hxpos
  have hnum' : 0 < x.num.toNat := by omega
  have hnum_cast : ((x.num.toNat : Nat) : ℚ) = (x.num : ℚ) := by
    exact_mod_cast congrArg (Int.cast : ℤ → ℚ) (Int.toNat_of_nonneg hnum.le)
  have hxab : x = ((x.num.toNat : Nat) : ℚ) / ((x.den : Nat) : ℚ) := by
    rw [hnum_cast, Rat.num_div_den]
  have hden' : (0 : ℚ) < (x.den : ℚ) := by exact_mod_cast x.den_pos
  have hval : ((x.num.toNat : Nat) : ℚ) * 2 ^ m = (c : ℚ) * 2 ^ m' := by
    have h1 : ((x.num.toNat : Nat) : ℚ) / ((x.den : Nat) : ℚ) = (c : ℚ) / 2 ^ m := by
      rw [← hxab, hxdef]
    rw [div_eq_div_iff (ne_of_gt hden') (by positivity)] at h1
    rw [h1, hdeq]
    push_cast
    ring
  have hvalN : x.num.toNat * 2 ^ m = c * 2 ^ m' := by exact_mod_cast hval
  have hnum_le : x.num.toNat ≤ c := by
    have h1 : c * 2 ^ m' ≤ c * 2 ^ m :=
      Nat.mul_le_mul_left c (Nat.pow_le_pow_right (by norm_num) hm')
    have h2 : x.num.toNat * 2 ^ m ≤ c * 2 ^ m := by omega
    exact Nat.le_of_mul_le_mul_right h2 (by positivity)
  rw [hdeq, floatRoundPos_dyadic _ m' hnum' (by omega)]
  rw [div_eq_div_iff (by positivity) (by positivity)]
  exact hval

/-- Python `float(n)` is exact below `2^53`. -/
theorem pyFloat_eq (n : Nat) (hn : n < 2 ^ 53) : pyFloat n = (n : ℚ) := by
  rcases Nat.eq_zero_or_pos n with rfl | hpos
  · simp [pyFloat, floatRound]
  · have h := floatRound_dyadic n 0 hpos hn
    simpa [pyFloat] using h

/-- The stored value of the literal `0.1` lies in `[0.099, 0.101]`. -/
theorem d0_1_bounds : 99 / 1000 ≤ d0_1 ∧ d0_1 ≤ 101 / 1000 := by
  have h := floatRound_bounds (1 / 10) (by norm_num) (by norm_num)
  have hx : ((1 : ℚ) / 10) / 2 ^ 52 ≤ 1 / 1000 := by norm_num
  have h0 : (0 : ℚ) ≤ ((1 : ℚ) / 10) / 2 ^ 52 := by positivity
  exact ⟨by simp only [d0_1]; linarith [h.1], by simp only [d0_1]; linarith [h.2]⟩

/-- The stored value of the literal `0.3` lies in `[0.29, 0.31]`. -/
theorem d0_3_bounds : 29 / 100 ≤ d0_3 ∧ d0_3 ≤ 31 / 100 := by
  have h := floatRound_bounds (3 / 10) (by norm_num) (by norm_num)
  have hx : ((3 : ℚ) / 10) / 2 ^ 52 ≤ 1 / 1000 := by norm_num
  have h0 : (0 : ℚ) ≤ ((3 : ℚ) / 10) / 2 ^ 52 := by positivity
  exact ⟨by simp only [d0_3]; linarith [h.1], by simp only [d0_3]; linarith [h.2]⟩

/-- The literal `0.5` is stored exactly. -/
theorem d0_5_eq : d0_5 = 1 / 2 := by
  have h := floatRound_dyadic 1 1 (by norm_num) (by norm_num)
  have he : ((1 : Nat) : ℚ) / 2 ^ 1 = (1 : ℚ) / 2 := by norm_num
  simp only [d0_5]
  rw [← he, h, he]

/-- The stored value of the literal `0.6` lies in `[0.59, 0.61]`. -/
theorem d0_6_bounds : 59 / 100 ≤ d0_6 ∧ d0_6 ≤ 61 / 100 := by
  have h := floatRound_bounds (6 / 10) (by norm_num) (by norm_num)
  have hx : ((6 : ℚ) / 10) / 2 ^ 52 ≤ 1 / 1000 := by norm_num
  have h0 : (0 : ℚ) ≤ ((6 : ℚ) / 10) / 2 ^ 52 := by positivity
  exact ⟨by simp only [d0_6]; linarith [h.1], by simp only [d0_6]; linarith [h.2]⟩

/-- The stored value of the literal `0.7` lies in `[0.69, 0.71]`. -/
theorem d0_7_bounds : 69 / 100 ≤ d0_7 ∧ d0_7 ≤ 71 / 100 := by
  have h := floatRound_bounds (7 / 10) (by norm_num) (by norm_num)
  have hx : ((7 : ℚ) / 10) / 2 ^ 52 ≤ 1 / 1000 := by norm_num
  have h0 : (0 : ℚ) ≤ ((7 : ℚ) / 10) / 2 ^ 52 := by positivity
  exact ⟨by simp only [d0_7]; linarith [h.1], by simp only [d0_7]; linarith [h.2]⟩

/-- A float `-= 0.1` step never raises a bound in `[0, 1]`. -/
theorem fsub_d01_le (s B : ℚ) (hs : s ≤ B) (hB0 : 0 ≤ B) (hB1 : B ≤ 1) :
    fsub s d0_1 ≤ B := by
  have hd := d0_1_bounds
  simp only [fsub]
  rcases le_or_lt (s - d0_1) 0 with h | h
  · have := floatRound_nonpos _ h
    linarith
  · have hle : s - d0_1 ≤ 2 ^ 42 := by
      have h242 : (1 : ℚ) ≤ 2 ^ 42 := by norm_num
      linarith
    have hb' := (floatRound_bounds _ h hle).2
    have h1 : s - d0_1 ≤ 1 := by linarith
    have h2p : (0 : ℚ) < (2 : ℚ) ^ 52 := by positivity
    have h52 : (s - d0_1) / 2 ^ 52 ≤ 1 / 2 ^ 52 := by gcongr
    have hnum : (1 : ℚ) / 2 ^ 52 ≤ 99 / 1000 := by norm_num
    linarith

/-- A float `-= 0.1` step lowers any upper bound in `[0.09, 1]`
by at least `0.09`. -/
theorem fsub_d01_ub (s b : ℚ) (hs : s ≤ b) (hb9 : 9 / 100 ≤ b) (hb1 : b ≤ 1) :
    fsub s d0_1 ≤ b - 9 / 100 := by
  have hd := d0_1_bounds
  simp only [fsub]
  rcases le_or_lt (s - d0_1) 0 with h | h
  · have := floatRound_nonpos _ h
    linarith
  · have hle : s - d0_1 ≤ 2 ^ 42 := by
      have h242 : (1 : ℚ) ≤ 2 ^ 42 := by norm_num
      linarith
    have hb' := (floatRound_bounds _ h hle).2
    have h1 : s - d0_1 ≤ 1 := by linarith
    have h2p : (0 : ℚ) < (2 : ℚ) ^ 52 := by positivity
    have h52 : (s - d0_1) / 2 ^ 52 ≤ 1 / 2 ^ 52 := by gcongr
    have hnum : (1 : ℚ) / 2 ^ 52 ≤ 1 / 1000 := by norm_num
    linarith

/-- Once a drift chain is below a bound in `[0, 1]`, it stays below it. -/
theorem fchain_persist (s0 B : ℚ) (N : Nat) (hN : fchain s0 N ≤ B)
    (hB0 : 0 ≤ B) (hB1 : B ≤ 1) : ∀ k, N ≤ k → fchain s0 k ≤ B := by
  intro k hk
  induction k with
  | zero =>
    have : N = 0 := Nat.le_zero.mp hk
    subst this
    exact hN
  | succ n ih =>
    rcases Nat.lt_or_ge n N with h | h
    · have : N = n + 1 := by omega
      subst this
      exact hN
    · exact fsub_d01_le _ _ (ih h) hB0 hB1

/-- Unfolding lemma for one drift step. -/
theorem fchain_succ (s0 : ℚ) (k : Nat) :
    fchain s0 (k + 1) = fsub (fchain s0 k) d0_1 := rfl

/-- One drift step under an explicit bound, at successor index. -/
theorem fchain_step_ub (s0 b : ℚ) (j : Nat) (h : fchain s0 j ≤ b)
    (hb9 : 9 / 100 ≤ b) (hb1 : b ≤ 1) :
    fchain s0 (j + 1) ≤ b - 9 / 100 := by
  rw [fchain_succ]
  exact fsub_d01_ub _ _ h hb9 hb1

/-- After eight `-= 0.1` steps the scale starting at `1.0` is at most
`0.28`, hence below the stored `0.3`: the `create_thumbnail` and
simple-optimizer main loops run exactly eight scale rounds. -/
theorem fchain_one_le_d0_3 (k : Nat) (hk : 8 ≤ k) : fchain 1 k ≤ d0_3 := by
  have h0 : fchain 1 0 ≤ 1 := by simp [fchain]
  have h1 : fchain 1 1 ≤ 91 / 100 :=
    le_trans (fchain_step_ub 1 1 0 h0 (by norm_num) (by norm_num)) (by norm_num)
  have h2 : fchain 1 2 ≤ 82 / 100 :=
    le_trans (fchain_step_ub 1 (91 / 100) 1 h1 (by norm_num) (by norm_num)) (by norm_num)
  have h3 : fchain 1 3 ≤ 73 / 100 :=
    le_trans (fchain_step_ub 1 (82 / 100) 2 h2 (by norm_num) (by norm_num)) (by norm_num)
  have h4 : fchain 1 4 ≤ 64 / 100 :=
    le_trans (fchain_step_ub 1 (73 / 100) 3 h3 (by norm_num) (by norm_num)) (by norm_num)
  have h5 : fchain 1 5 ≤ 55 / 100 :=
    le_trans (fchain_step_ub 1 (64 / 100) 4 h4 (by norm_num) (by norm_num)) (by norm_num)
  have h6 : fchain 1 6 ≤ 46 / 100 :=
    le_trans (fchain_step_ub 1 (55 / 100) 5 h5 (by norm_num) (by norm_num)) (by norm_num)
  have h7 : fchain 1 7 ≤ 37 / 100 :=
    le_trans (fchain_step_ub 1 (46 / 100) 6 h6 (by norm_num) (by norm_num)) (by norm_num)
  have h8 : fchain 1 8 ≤ 28 / 100 :=
    le_trans (fchain_step_ub 1 (37 / 100) 7 h7 (by norm_num) (by norm_num)) (by norm_num)
  have hp := fchain_persist 1 (28 / 100) 8 h8 (by norm_num) (by norm_num) k hk
  have hd := d0_3_bounds
  linarith

/-- After six `-= 0.1` steps the scale starting at `1.0` is at most
`0.46`, hence below the stored `0.5`: the recent-optimizer main loop
runs exactly six scale rounds. -/
theorem fchain_one_le_d0_5 (k : Nat) (hk : 6 ≤ k) : fchain 1 k ≤ d0_5 := by
  have h0 : fchain 1 0 ≤ 1 := by simp [fchain]
  have h1 : fchain 1 1 ≤ 91 / 100 :=
    le_trans (fchain_step_ub 1 1 0 h0 (by norm_num) (by norm_num)) (by norm_num)
  have h2 : fchain 1 2 ≤ 82 / 100 :=
    le_trans (fchain_step_ub 1 (91 / 100) 1 h1 (by norm_num) (by norm_num)) (by norm_num)
  have h3 : fchain 1 3 ≤ 73 / 100 :=
    le_trans (fchain_step_ub 1 (82 / 100) 2 h2 (by norm_num) (by norm_num)) (by norm_num)
  have h4 : fchain 1 4 ≤ 64 / 100 :=
    le_trans (fchain_step_ub 1 (73 / 100) 3 h3 (by norm_num) (by norm_num)) (by norm_num)
  have h5 : fchain 1 5 ≤ 55 / 100 :=
    le_trans (fchain_step_ub 1 (64 / 100) 4 h4 (by norm_num) (by norm_num)) (by norm_num)
  have h6 : fchain 1 6 ≤ 46 / 100 :=
    le_trans (fchain_step_ub 1 (55 / 100) 5 h5 (by norm_num) (by norm_num)) (by norm_num)
  have hp := fchain_persist 1 (46 / 100) 6 h6 (by norm_num) (by norm_num) k hk
  rw [d0_5_eq]
  linarith

/-- After five `-= 0.1` steps the scale starting at `0.7` is at most
`0.26`, hence below the stored `0.3`: the recent aggressive tail runs
exactly five scale rounds. -/
theorem fchain_d0_7_le_d0_3 (k : Nat) (hk : 5 ≤ k) : fchain d0_7 k ≤ d0_3 := by
  have hd7 := d0_7_bounds
  have h0 : fchain d0_7 0 ≤ 71 / 100 := hd7.2
  have h1 : fchain d0_7 1 ≤ 62 / 100 :=
    le_trans (fchain_step_ub d0_7 (71 / 100) 0 h0 (by norm_num) (by norm_num)) (by norm_num)
  have h2 : fchain d0_7 2 ≤ 53 / 100 :=
    le_trans (fchain_step_ub d0_7 (62 / 100) 1 h1 (by norm_num) (by norm_num)) (by norm_num)
  have h3 : fchain d0_7 3 ≤ 44 / 100 :=
    le_trans (fchain_step_ub d0_7 (53 / 100) 2 h2 (by norm_num) (by norm_num)) (by norm_num)
  have h4 : fchain d0_7 4 ≤ 35 / 100 :=
    le_trans (fchain_step_ub d0_7 (44 / 100) 3 h3 (by norm_num) (by norm_num)) (by norm_num)
  have h5 : fchain d0_7 5 ≤ 26 / 100 :=
    le_trans (fchain_step_ub d0_7 (35 / 100) 4 h4 (by norm_num) (by norm_num)) (by norm_num)
  have hp := fchain_persist d0_7 (26 / 100) 5 h5 (by norm_num) (by norm_num) k hk
  have hd := d0_3_bounds
  linarith

/-- After four `-= 0.1` steps the scale starting at `0.6` is at most
`0.25`, hence below the stored `0.3`: the simple aggressive tail runs
exactly four scale rounds. -/
theorem fchain_d0_6_le_d0_3 (k : Nat) (hk : 4 ≤ k) : fchain d0_6 k ≤ d0_3 := by
  have hd6 := d0_6_bounds
  have h0 : fchain d0_6 0 ≤ 61 / 100 := hd6.2
  have h1 : fchain d0_6 1 ≤ 52 / 100 :=
    le_trans (fchain_step_ub d0_6 (61 / 100) 0 h0 (by norm_num) (by norm_num)) (by norm_num)
  have h2 : fchain d0_6 2 ≤ 43 / 100 :=
    le_trans (fchain_step_ub d0_6 (52 / 100) 1 h1 (by norm_num) (by norm_num)) (by norm_num)
  have h3 : fchain d0_6 3 ≤ 34 / 100 :=
    le_trans (fchain_step_ub d0_6 (43 / 100) 2 h2 (by norm_num) (by norm_num)) (by norm_num)
  have h4 : fchain d0_6 4 ≤ 25 / 100 :=
    le_trans (fchain_step_ub d0_6 (34 / 100) 3 h3 (by norm_num) (by norm_num)) (by norm_num)
  have hp := fchain_persist d0_6 (25 / 100) 4 h4 (by norm_num) (by norm_num) k hk
  have hd := d0_3_bounds
  linarith

/-- Multiplying an exactly represented integer by the stored `0.5` and
truncating yields exact halving. -/
theorem half_exact (n : Nat) (hn : n < 2 ^ 53) :
    pyTrunc (fmul (pyFloat n) d0_5) = n / 2 := by
  rcases Nat.eq_zero_or_pos n with rfl | hpos
  · simp [pyTrunc, fmul, pyFloat, floatRound]
  · have hf := pyFloat_eq n hn
    rw [fmul, hf, d0_5_eq]
    have hmul : (n : ℚ) * (1 / 2) = (n : ℚ) / 2 ^ 1 := by ring
    rw [hmul, floatRound_dyadic n 1 hpos hn]
    simp only [pyTrunc, pow_one]
    have h2 : (n : ℚ) / 2 = (n : ℚ) / ((2 : ℕ) : ℚ) := by norm_num
    rw [h2, Nat.floor_div_nat, Nat.floor_natCast]

/-- Every success of the recent quality/scale loop passed its
`size <= max_size` check, at every fuel and loop state. -/
theorem roLoopF_le (jpeg : Nat → Nat → Nat → List Nat) (w h maxS : Nat) :
    ∀ fuel q k r, roLoopF jpeg w h maxS fuel q k = some r → r.length ≤ maxS := by
  intro fuel
  induction fuel with
  | zero => intro q k r hr; simp [roLoopF] at hr
  | succ m ih =>
    intro q k r hr
    simp only [roLoopF] at hr
    by_cases hg : 30 < q ∧ d0_5 < fchain 1 k
    · rw [if_pos hg] at hr
      by_cases hj : (jpeg (if fchain 1 k < 1 then scaledDims w h (fchain 1 k) else (w, h)).1
          (if fchain 1 k < 1 then scaledDims w h (fchain 1 k) else (w, h)).2 q).length ≤ maxS
      · rw [if_pos hj] at hr
        injection hr with hb
        rw [← hb]
        exact hj
      · rw [if_neg hj] at hr
        by_cases h70 : 70 < q
        · rw [if_pos h70] at hr
          exact ih _ _ _ hr
        · rw [if_neg h70] at hr
          by_cases h50 : 50 < q
          · rw [if_pos h50] at hr
            exact ih _ _ _ hr
          · rw [if_neg h50] at hr
            exact ih _ _ _ hr
    · rw [if_neg hg] at hr
      exact absurd hr (by simp)

/-- Every success of the recent aggressive tail passed its size check,
at every fuel and scale state. -/
theorem raLoopF_le (jpeg : Nat → Nat → Nat → List Nat) (w h maxS : Nat) :
    ∀ fuel k r, raLoopF jpeg w h maxS fuel k = some r → r.length ≤ maxS := by
  intro fuel
  induction fuel with
  | zero => intro k r hr; simp [raLoopF] at hr
  | succ m ih =>
    intro k r hr
    simp only [raLoopF] at hr
    by_cases hg : d0_3 < fchain d0_7 k
    · rw [if_pos hg] at hr
      by_cases hj : (jpeg (scaledDims w h (fchain d0_7 k)).1
          (scaledDims w h (fchain d0_7 k)).2 60).length ≤ maxS
      · rw [if_pos hj] at hr
        injection hr with hb
        rw [← hb]
        exact hj
      · rw [if_neg hj] at hr
        exact ih _ _ hr
    · rw [if_neg hg] at hr
      exact absurd hr (by simp)

/-- C1: For every input image and byte ceiling, the recent generator's
`_optimize_image_size` either returns bytes within the ceiling or
returns `None`: every returned byte string passed a `size <= max_size`
check, and exhaustion returns `None`.  (The counterexample theorem
shows the companion claim about `create_thumbnail` fails: its final
attempt is returned unchecked.) -/
theorem optimize_recent_respects_ceiling (png : Nat → Nat → List Nat)
    (jpeg : Nat → Nat → Nat → List Nat) (w h maxS : Nat) (bs : List Nat)
    (hbs : optimize_recent png jpeg w h maxS = some bs) : bs.length ≤ maxS := by
  simp only [optimize_recent] at hbs
  by_cases hp : (png w h).length ≤ maxS
  · rw [if_pos hp] at hbs
    injection hbs with hb
    rw [← hb]
    exact hp
  · rw [if_neg hp] at hbs
    cases hro : roLoopF jpeg w h maxS 2000 95 0 with
    | some r =>
      rw [hro] at hbs
      injection hbs with hb
      rw [← hb]
      exact roLoopF_le jpeg w h maxS 2000 95 0 r hro
    | none =>
      rw [hro] at hbs
      by_cases hj : (jpeg w h 30).length ≤ maxS
      · rw [if_pos hj] at hbs
        injection hbs with hb
        rw [← hb]
        exact hj
      · rw [if_neg hj] at hbs
        exact raLoopF_le jpeg w h maxS 100 0 bs hbs

/-- Witness for `optimize_recent_respects_ceiling`: with an encoder whose
PNG output is empty, the search returns it and the ceiling holds. -/
theorem optimize_recent_respects_ceiling_witness :
    optimize_recent cPng0 cJpeg0 10 10 5 = some [] ∧ ([] : List Nat).length ≤ 5 :=
  ⟨rfl, optimize_recent_respects_ceiling cPng0 cJpeg0 10 10 5 [] rfl⟩

/-- `ctLoopF` is the first-fit scan over its candidate list: it returns
the encode of the first candidate within the ceiling, at every fuel. -/
theorem ctLoopF_eq_find (png : Nat → Nat → List Nat) (jpeg : Nat → Nat → Nat → List Nat)
    (nw nh target : Nat) : ∀ fuel q k,
    ctLoopF png jpeg nw nh target fuel q k
      = ((ctCandsF nw nh fuel q k).find? (fitsC png jpeg target)).map
          (encodeC png jpeg) := by
  intro fuel
  induction fuel with
  | zero => intro q k; simp [ctLoopF, ctCandsF]
  | succ m ih =>
    intro q k
    simp only [ctLoopF, ctCandsF]
    by_cases hg : 15 < q ∧ d0_3 < fchain 1 k
    · rw [if_pos hg, if_pos hg]
      set dims := if fchain 1 k < 1 then scaledDims nw nh (fchain 1 k) else (nw, nh) with hdims
      by_cases hd : dims.1 < 100 ∨ dims.2 < 100
      · rw [if_pos hd, if_pos hd]
        simp
      · rw [if_neg hd, if_neg hd]
        by_cases hp : (png dims.1 dims.2).length ≤ target
        · rw [if_pos hp]
          rw [List.find?_cons_of_pos _ (by simp [fitsC, encodeC, hp])]
          simp [encodeC]
        · rw [if_neg hp]
          rw [List.find?_cons_of_neg _ (by simp [fitsC, encodeC, hp])]
          by_cases hj : (jpeg dims.1 dims.2 q).length ≤ target
          · rw [if_pos hj]
            rw [List.find?_cons_of_pos _ (by simp [fitsC, encodeC, hj])]
            simp [encodeC]
          · rw [if_neg hj]
            rw [List.find?_cons_of_neg _ (by simp [fitsC, encodeC, hj])]
            by_cases h50 : 50 < q
            · rw [if_pos h50, if_pos h50]
              exact ih _ _
            · rw [if_neg h50, if_neg h50]
              by_cases h25 : 25 < q
              · rw [if_pos h25, if_pos h25]
                exact ih _ _
              · rw [if_neg h25, if_neg h25]
                exact ih _ _
    · rw [if_neg hg, if_neg hg]
      simp

/-- The candidate list of `create_thumbnail`'s search is independent of
the fuel once the fuel exceeds the loop's measure: the embedded fuel
never truncates the program's iterations. -/
theorem ctCandsF_stable (nw nh : Nat) : ∀ fuel fuel' q k,
    (8 - k) * 200 + q < fuel → (8 - k) * 200 + q < fuel' →
    ctCandsF nw nh fuel q k = ctCandsF nw nh fuel' q k := by
  intro fuel
  induction fuel with
  | zero => intro fuel' q k h _; exact absurd h (Nat.not_lt_zero _)
  | succ m ih =>
    intro fuel' q k h h'
    cases fuel' with
    | zero => exact absurd h' (Nat.not_lt_zero _)
    | succ m' =>
      simp only [ctCandsF]
      by_cases hg : 15 < q ∧ d0_3 < fchain 1 k
      · rw [if_pos hg, if_pos hg]
        set dims := if fchain 1 k < 1 then scaledDims nw nh (fchain 1 k) else (nw, nh)
          with hdims
        by_cases hd : dims.1 < 100 ∨ dims.2 < 100
        · rw [if_pos hd, if_pos hd]
        · rw [if_neg hd, if_neg hd]
          have hk : k < 8 := by
            by_contra hc
            push_neg at hc
            exact absurd hg.2 (not_lt.mpr (fchain_one_le_d0_3 k hc))
          by_cases h50 : 50 < q
          · rw [if_pos h50, if_pos h50]
            have := ih m' (q - 10) k (by omega) (by omega)
            rw [this]
          · rw [if_neg h50, if_neg h50]
            by_cases h25 : 25 < q
            · rw [if_pos h25, if_pos h25]
              have := ih m' (q - 5) k (by omega) (by omega)
              rw [this]
            · rw [if_neg h25, if_neg h25]
              have := ih m' 85 (k + 1) (by omega) (by omega)
              rw [this]
      · rw [if_neg hg, if_neg hg]

/-- C2: `create_thumbnail` never reports failure: when every candidate
of its quality/scale search exceeds the byte ceiling, it still returns
the final JPEG encode at quality 15 and clamped halved dimensions,
whatever that encode's size; and the embedded search is fuel-complete —
any fuel at or beyond the entry fuel yields the same candidate list, so
the fall-through is genuine candidate exhaustion. -/
theorem create_thumbnail_floor (png : Nat → Nat → List Nat)
    (jpeg : Nat → Nat → Nat → List Nat) (w h target : Nat)
    (hfail : ∀ c ∈ ctCands (ctInitDims w h).1 (ctInitDims w h).2,
        target < (encodeC png jpeg c).length) :
    create_thumbnail png jpeg w h target
      = jpeg (ctFinalDims (ctInitDims w h).1 (ctInitDims w h).2).1
             (ctFinalDims (ctInitDims w h).1 (ctInitDims w h).2).2 15
    ∧ ∀ fuel, 2000 ≤ fuel →
        ctCandsF (ctInitDims w h).1 (ctInitDims w h).2 fuel 85 0
          = ctCands (ctInitDims w h).1 (ctInitDims w h).2 := by
  constructor
  · have hfind : (ctCands (ctInitDims w h).1 (ctInitDims w h).2).find?
        (fitsC png jpeg target) = none := by
      rw [List.find?_eq_none]
      intro c hc
      have := hfail c hc
      simp [fitsC]
      omega
    simp only [create_thumbnail]
    rw [ctLoopF_eq_find]
    rw [show ctCandsF (ctInitDims w h).1 (ctInitDims w h).2 2000 85 0
        = ctCands (ctInitDims w h).1 (ctInitDims w h).2 from rfl]
    rw [hfind]
    rfl
  · intro fuel hfuel
    exact ctCandsF_stable _ _ fuel 2000 85 0 (by omega) (by omega)

/-- Witness for `create_thumbnail_floor`: constant 11-byte encoders with
a 10-byte ceiling — every candidate fails, the final encode is returned. -/
theorem create_thumbnail_floor_witness :
    create_thumbnail cPng11 cJpeg11 100 100 10
      = cJpeg11 (ctFinalDims (ctInitDims 100 100).1 (ctInitDims 100 100).2).1
                (ctFinalDims (ctInitDims 100 100).1 (ctInitDims 100 100).2).2 15 :=
  (create_thumbnail_floor cPng11 cJpeg11 100 100 10 (by
    intro c hc
    cases c with
    | mk fmt cw ch q =>
      cases fmt <;> simp [encodeC, cPng11, cJpeg11, bytes11])).1

/-- C1 counterexample: with the 11-byte constant encoders and
`target_size = 10`, `create_thumbnail` neither stays within the ceiling
nor reports failure — it returns an 11-byte string. -/
theorem create_thumbnail_exceeds_ceiling :
    10 < (create_thumbnail cPng11 cJpeg11 100 100 10).length := by
  have hfind : (ctCandsF (ctInitDims 100 100).1 (ctInitDims 100 100).2 2000 85 0).find?
      (fitsC cPng11 cJpeg11 10) = none := by
    rw [List.find?_eq_none]
    intro c hc
    cases c with
    | mk fmt cw ch q =>
      cases fmt <;> simp [fitsC, encodeC, cPng11, cJpeg11, bytes11]
  simp only [create_thumbnail]
  rw [ctLoopF_eq_find, hfind]
  simp [cJpeg11, bytes11]

/-- `soLoopF` is the first-fit scan over its candidate list, for any
PNG encoder parameterizing the fit predicate. -/
theorem soLoopF_eq_find (png : Nat → Nat → List Nat) (jpeg : Nat → Nat → Nat → List Nat)
    (w h maxS : Nat) : ∀ fuel q k,
    soLoopF jpeg w h maxS fuel q k
      = ((soCandsF w h fuel q k).find? (fitsC png jpeg maxS)).map
          (encodeC png jpeg) := by
  intro fuel
  induction fuel with
  | zero => intro q k; simp [soLoopF, soCandsF]
  | succ m ih =>
    intro q k
    simp only [soLoopF, soCandsF]
    by_cases hg : 30 < q ∧ d0_5 < fchain 1 k
    · rw [if_pos hg, if_pos hg]
      set dims := if fchain 1 k < 1 then scaledDims w h (fchain 1 k) else (w, h) with hdims
      by_cases hj : (jpeg dims.1 dims.2 q).length ≤ maxS
      · rw [if_pos hj]
        rw [List.find?_cons_of_pos _ (by simp [fitsC, encodeC, hj])]
        simp [encodeC]
      · rw [if_neg hj]
        rw [List.find?_cons_of_neg _ (by simp [fitsC, encodeC, hj])]
        by_cases h60 : 60 < q
        · rw [if_pos h60, if_pos h60]
          exact ih _ _
        · rw [if_neg h60, if_neg h60]
          by_cases h45 : 45 < q
          · rw [if_pos h45, if_pos h45]
            exact ih _ _
          · rw [if_neg h45, if_neg h45]
            exact ih _ _
    · rw [if_neg hg, if_neg hg]
      simp

/-- `saLoopF` is the first-fit scan over its candidate list. -/
theorem saLoopF_eq_find (png : Nat → Nat → List Nat) (jpeg : Nat → Nat → Nat → List Nat)
    (w h maxS : Nat) : ∀ fuel k,
    saLoopF jpeg w h maxS fuel k
      = ((saCandsF w h fuel k).find? (fitsC png jpeg maxS)).map
          (encodeC png jpeg) := by
  intro fuel
  induction fuel with
  | zero => intro k; simp [saLoopF, saCandsF]
  | succ m ih =>
    intro k
    simp only [saLoopF, saCandsF]
    by_cases hg : d0_3 < fchain d0_6 k
    · rw [if_pos hg, if_pos hg]
      by_cases hj : (jpeg (scaledDims w h (fchain d0_6 k)).1
          (scaledDims w h (fchain d0_6 k)).2 70).length ≤ maxS
      · rw [if_pos hj]
        rw [List.find?_cons_of_pos _ (by simp [fitsC, encodeC, hj])]
        simp [encodeC]
      · rw [if_neg hj]
        rw [List.find?_cons_of_neg _ (by simp [fitsC, encodeC, hj])]
        exact ih _
    · rw [if_neg hg, if_neg hg]
      simp

/-- The simple quality/scale loop's candidate list is fuel-stable past
its measure. -/
theorem soCandsF_stable (w h : Nat) : ∀ fuel fuel' q k,
    (6 - k) * 200 + q < fuel → (6 - k) * 200 + q < fuel' →
    soCandsF w h fuel q k = soCandsF w h fuel' q k := by
  intro fuel
  induction fuel with
  | zero => intro fuel' q k hlt _; exact absurd hlt (Nat.not_lt_zero _)
  | succ m ih =>
    intro fuel' q k hlt hlt'
    cases fuel' with
    | zero => exact absurd hlt' (Nat.not_lt_zero _)
    | succ m' =>
      simp only [soCandsF]
      by_cases hg : 30 < q ∧ d0_5 < fchain 1 k
      · rw [if_pos hg, if_pos hg]
        have hk : k < 6 := by
          by_contra hc
          push_neg at hc
          exact absurd hg.2 (not_lt.mpr (fchain_one_le_d0_5 k hc))
        by_cases h60 : 60 < q
        · rw [if_pos h60, if_pos h60]
          have := ih m' (q - 10) k (by omega) (by omega)
          rw [this]
        · rw [if_neg h60, if_neg h60]
          by_cases h45 : 45 < q
          · rw [if_pos h45, if_pos h45]
            have := ih m' (q - 5) k (by omega) (by omega)
            rw [this]
          · rw [if_neg h45, if_neg h45]
            have := ih m' 75 (k + 1) (by omega) (by omega)
            rw [this]
      · rw [if_neg hg, if_neg hg]

/-- The simple aggressive tail's candidate list is fuel-stable past its
measure. -/
theorem saCandsF_stable (w h : Nat) : ∀ fuel fuel' k,
    5 - k < fuel → 5 - k < fuel' →
    saCandsF w h fuel k = saCandsF w h fuel' k := by
  intro fuel
  induction fuel with
  | zero => intro fuel' k hlt _; exact absurd hlt (Nat.not_lt_zero _)
  | succ m ih =>
    intro fuel' k hlt hlt'
    cases fuel' with
    | zero => exact absurd hlt' (Nat.not_lt_zero _)
    | succ m' =>
      simp only [saCandsF]
      by_cases hg : d0_3 < fchain d0_6 k
      · rw [if_pos hg, if_pos hg]
        have hk : k < 4 := by
          by_contra hc
          push_neg at hc
          exact absurd hg (not_lt.mpr (fchain_d0_6_le_d0_3 k hc))
        have := ih m' (k + 1) (by omega) (by omega)
        rw [this]
      · rw [if_neg hg, if_neg hg]

/-- `optimize_simple` is the first-fit scan over the full fixed
candidate order `simpleCands`. -/
theorem optimize_simple_eq_find (png : Nat → Nat → List Nat)
    (jpeg : Nat → Nat → Nat → List Nat) (w h maxS : Nat) :
    optimize_simple png jpeg w h maxS
      = ((simpleCands w h).find? (fitsC png jpeg maxS)).map (encodeC png jpeg) := by
  simp only [optimize_simple, simpleCands]
  by_cases hp : (png w h).length ≤ maxS
  · rw [if_pos hp]
    rw [List.find?_cons_of_pos _ (by simp [fitsC, encodeC, hp])]
    simp [encodeC]
  · rw [if_neg hp]
    rw [List.find?_cons_of_neg _ (by simp [fitsC, encodeC, hp])]
    rw [List.find?_append]
    rw [soLoopF_eq_find png jpeg w h maxS 2000 85 0]
    cases hso : (soCandsF w h 2000 85 0).find? (fitsC png jpeg maxS) with
    | some c => simp [soCands, hso]
    | none =>
      simp only [soCands, hso, Option.map_none', Option.none_or]
      exact saLoopF_eq_find png jpeg w h maxS 100 0

/-- First-fit index monotonicity for a weaker predicate: if the weaker
predicate holds wherever the stronger one does, its first hit is at the
same or an earlier position. -/
theorem findIdxP_mono {α : Type} (p q : α → Bool) (himp : ∀ x, p x = true → q x = true) :
    ∀ (l : List α) (i : Nat), findIdxP p l = some i →
      ∃ j, findIdxP q l = some j ∧ j ≤ i := by
  intro l
  induction l with
  | nil => intro i hi; simp [findIdxP] at hi
  | cons x xs ih =>
    intro i hi
    cases hpx : p x with
    | true =>
      refine ⟨0, ?_, Nat.zero_le _⟩
      simp [findIdxP, himp x hpx]
    | false =>
      simp [findIdxP, hpx] at hi
      cases hxs : findIdxP p xs with
      | none => rw [hxs] at hi; simp at hi
      | some i0 =>
        rw [hxs] at hi
        simp at hi
        obtain ⟨j0, hj0, hle⟩ := ih i0 hxs
        cases hqx : q x with
        | true => exact ⟨0, by simp [findIdxP, hqx], Nat.zero_le _⟩
        | false =>
          refine ⟨j0 + 1, ?_, by omega⟩
          simp [findIdxP, hqx, hj0]

/-- C6: the simple optimizer's search is a first-fit scan over one
fixed candidate order (full-size PNG, then the quality/scale loop's
JPEGs, then the aggressive tail's), and shrinking the ceiling never
moves the accepted candidate to an earlier position; both embedded
loops' candidate lists are fuel-complete past their entry fuels. -/
theorem size_search_first_fit_monotone (png : Nat → Nat → List Nat)
    (jpeg : Nat → Nat → Nat → List Nat) (w h C C' i i' : Nat) (hCC : C ≤ C')
    (hi : findIdxP (fitsC png jpeg C) (simpleCands w h) = some i)
    (hi' : findIdxP (fitsC png jpeg C') (simpleCands w h) = some i') :
    i' ≤ i
    ∧ (∀ S, optimize_simple png jpeg w h S
        = ((simpleCands w h).find? (fitsC png jpeg S)).map (encodeC png jpeg))
    ∧ (∀ fuel, 2000 ≤ fuel → soCandsF w h fuel 85 0 = soCands w h)
    ∧ (∀ fuel, 6 ≤ fuel → saCandsF w h fuel 0 = saCands w h) := by
  refine ⟨?_, fun S => optimize_simple_eq_find png jpeg w h S,
      fun fuel hf => soCandsF_stable w h fuel 2000 85 0 (by omega) (by omega),
      fun fuel hf => saCandsF_stable w h fuel 100 0 (by omega) (by omega)⟩
  have himp : ∀ c, fitsC png jpeg C c = true → fitsC png jpeg C' c = true := by
    intro c hc
    simp [fitsC] at hc ⊢
    omega
  obtain ⟨j, hj, hle⟩ := findIdxP_mono _ _ himp (simpleCands w h) i hi
  rw [hj] at hi'
  injection hi' with hji
  omega

/-- Witness for `size_search_first_fit_monotone`: empty-output encoders
fit the head PNG candidate under both ceilings 0 and 1, at index 0. -/
theorem size_search_first_fit_monotone_witness :
    (0 : Nat) ≤ 1
    ∧ findIdxP (fitsC cPng0 cJpeg0 0) (simpleCands 10 10) = some 0
    ∧ findIdxP (fitsC cPng0 cJpeg0 1) (simpleCands 10 10) = some 0
    ∧ (0 : Nat) ≤ 0 :=
  ⟨by norm_num, rfl, rfl,
   (size_search_first_fit_monotone cPng0 cJpeg0 10 10 0 1 0 0 (by norm_num) rfl rfl).1⟩

/-- Truncation window: if a value is within one half of a nonnegative
exact target, its floor is within the stated window of the target. -/
theorem floorWindow (x e : ℚ) (he : 0 ≤ e) (hxe : |x - e| ≤ 1 / 2) :
    ((⌊x⌋₊ : ℚ) ≤ e + 1 / 2) ∧ (e ≤ (⌊x⌋₊ : ℚ) + 3 / 2) := by
  have h := abs_le.mp hxe
  rcases le_or_lt 0 x with hx | hx
  · constructor
    · have := Nat.floor_le hx
      linarith
    · have := Nat.lt_floor_add_one x
      linarith
  · have hfl : ⌊x⌋₊ = 0 := Nat.floor_eq_zero.mpr (lt_of_lt_of_le hx (by norm_num))
    rw [hfl]
    constructor
    · push_cast
      linarith
    · push_cast
      linarith

/-- The float aspect ratio is the correctly rounded exact ratio, with
relative error at most `2^-52`, for dimensions up to `2^20`. -/
theorem aspectF_window (w h : Nat) (hw1 : 1 ≤ w) (hw : w ≤ 2 ^ 20)
    (hh1 : 1 ≤ h) (hh : h ≤ 2 ^ 20) :
    |aspectF w h - (w : ℚ) / h| ≤ ((w : ℚ) / h) / 2 ^ 52 := by
  have hwq : (1 : ℚ) ≤ (w : ℚ) := by exact_mod_cast hw1
  have hhq : (1 : ℚ) ≤ (h : ℚ) := by exact_mod_cast hh1
  have hwq2 : (w : ℚ) ≤ 2 ^ 20 := by exact_mod_cast hw
  have hhpos : (0 : ℚ) < (h : ℚ) := by linarith
  have hr_pos : 0 < (w : ℚ) / h := by positivity
  have hr_hi : (w : ℚ) / h ≤ 2 ^ 42 := by
    rw [div_le_iff₀ hhpos]
    nlinarith
  rw [aspectF, fdiv, pyFloat_eq w (lt_of_le_of_lt hw (by norm_num)),
    pyFloat_eq h (lt_of_le_of_lt hh (by norm_num))]
  exact floatRound_err _ hr_pos hr_hi

/-- Window for `int(n * A)` where `A` carries a relative error of at
most `2^-52` against an exact ratio `a` of moderate size. -/
theorem fmul_window (n : Nat) (A a : ℚ) (hn1 : 1 ≤ n) (hn : n ≤ 2 ^ 20)
    (ha_lo : 1 / 2 ^ 21 ≤ a) (ha_hi : a ≤ 2 ^ 21)
    (hA : |A - a| ≤ a / 2 ^ 52) :
    |fmul (pyFloat n) A - (n : ℚ) * a| ≤ 1 / 2 := by
  have hnq1 : (1 : ℚ) ≤ (n : ℚ) := by exact_mod_cast hn1
  have hnq : (n : ℚ) ≤ 2 ^ 20 := by exact_mod_cast hn
  have ha_pos : (0 : ℚ) < a := lt_of_lt_of_le (by norm_num) ha_lo
  have habs := abs_le.mp hA
  have hhalf : a / 2 ^ 52 ≤ a / 2 := by gcongr <;> norm_num
  have hA_pos : 0 < A := by linarith
  have hA_le : A ≤ 2 * a := by linarith
  rw [fmul, pyFloat_eq n (lt_of_le_of_lt hn (by norm_num))]
  have hx_pos : 0 < (n : ℚ) * A := by positivity
  have hstep : (n : ℚ) * A ≤ 2 ^ 20 * (2 * a) :=
    mul_le_mul hnq hA_le hA_pos.le (by norm_num)
  have hprod_hi : (n : ℚ) * A ≤ 2 ^ 42 := by nlinarith
  have herr := floatRound_err ((n : ℚ) * A) hx_pos hprod_hi
  have hround : |floatRound ((n : ℚ) * A) - (n : ℚ) * A| ≤ 1 / 4 := by
    refine le_trans herr ?_
    rw [div_le_iff₀ (by norm_num : (0 : ℚ) < 2 ^ 52)]
    linarith
  have hd1 : (n : ℚ) * (A - a) ≤ (n : ℚ) * (a / 2 ^ 52) :=
    mul_le_mul_of_nonneg_left habs.2 (by positivity)
  have hd2 : (n : ℚ) * (-(a / 2 ^ 52)) ≤ (n : ℚ) * (A - a) :=
    mul_le_mul_of_nonneg_left habs.1 (by positivity)
  have hna : (n : ℚ) * a ≤ 2 ^ 41 := by
    calc (n : ℚ) * a ≤ 2 ^ 20 * 2 ^ 21 := mul_le_mul hnq ha_hi ha_pos.le (by norm_num)
      _ = 2 ^ 41 := by norm_num
  have hsmall : (n : ℚ) * (a / 2 ^ 52) ≤ 1 / 4 := by
    have hre : (n : ℚ) * (a / 2 ^ 52) = ((n : ℚ) * a) / 2 ^ 52 := by ring
    rw [hre, div_le_iff₀ (by norm_num : (0 : ℚ) < 2 ^ 52)]
    linarith
  have hexp : (n : ℚ) * (A - a) = (n : ℚ) * A - (n : ℚ) * a := by ring
  rw [hexp] at hd1 hd2
  have hr2 := abs_le.mp hround
  rw [abs_le]
  constructor <;> linarith

/-- Window for `int(n / A)` where `A` carries a relative error of at
most `2^-52` against an exact ratio `a` of moderate size. -/
theorem fdiv_window (n : Nat) (A a : ℚ) (hn1 : 1 ≤ n) (hn : n ≤ 2 ^ 20)
    (ha_lo : 1 / 2 ^ 21 ≤ a) (ha_hi : a ≤ 2 ^ 21)
    (hA : |A - a| ≤ a / 2 ^ 52) :
    |fdiv (pyFloat n) A - (n : ℚ) / a| ≤ 1 / 2 := by
  have hnq1 : (1 : ℚ) ≤ (n : ℚ) := by exact_mod_cast hn1
  have hnq : (n : ℚ) ≤ 2 ^ 20 := by exact_mod_cast hn
  have ha_pos : (0 : ℚ) < a := lt_of_lt_of_le (by norm_num) ha_lo
  have habs := abs_le.mp hA
  have hhalf : a / 2 ^ 52 ≤ a / 2 := by gcongr <;> norm_num
  have hA_lo2 : a / 2 ≤ A := by linarith
  have hA_pos : 0 < A := by linarith
  rw [fdiv, pyFloat_eq n (lt_of_le_of_lt hn (by norm_num))]
  have hv_pos : 0 < (n : ℚ) / A := by positivity
  have hia : (0 : ℚ) ≤ 1 / a := by positivity
  have hinv : (1 : ℚ) / a ≤ 2 ^ 21 := by
    rw [div_le_iff₀ ha_pos]
    nlinarith
  have hv_hi : (n : ℚ) / A ≤ 2 ^ 42 := by
    have h1 : (n : ℚ) / A ≤ (n : ℚ) / (a / 2) := by
      gcongr
      all_goals first
        | positivity
        | linarith
    have h2 : (n : ℚ) / (a / 2) = 2 * ((n : ℚ) * (1 / a)) := by
      field_simp
      ring
    have h3 : (n : ℚ) * (1 / a) ≤ 2 ^ 20 * 2 ^ 21 :=
      mul_le_mul hnq hinv hia (by norm_num)
    calc (n : ℚ) / A ≤ (n : ℚ) / (a / 2) := h1
      _ = 2 * ((n : ℚ) * (1 / a)) := h2
      _ ≤ 2 * (2 ^ 20 * 2 ^ 21) := by linarith
      _ = 2 ^ 42 := by norm_num
  have hdiff : (n : ℚ) / A - (n : ℚ) / a = (n : ℚ) * (a - A) / (A * a) := by
    field_simp
    ring
  have hAa_pos : 0 < A * a := by positivity
  have hnum : |(n : ℚ) * (a - A)| ≤ 2 ^ 20 * (a / 2 ^ 52) := by
    rw [abs_mul, abs_of_nonneg (by positivity : (0 : ℚ) ≤ (n : ℚ)), abs_sub_comm]
    exact mul_le_mul hnq hA (abs_nonneg _) (by norm_num)
  have hquot : |(n : ℚ) / A - (n : ℚ) / a| ≤ 2 ^ 20 * (a / 2 ^ 52) / (A * a) := by
    rw [hdiff, abs_div, abs_of_pos hAa_pos]
    gcongr
  have haa : (1 / 2 ^ 21 : ℚ) * a ≤ a * a := mul_le_mul_of_nonneg_right ha_lo ha_pos.le
  have hAa2 : a * a / 2 ≤ A * a := by nlinarith
  have hfar : 2 ^ 20 * (a / 2 ^ 52) / (A * a) ≤ 1 / 4 := by
    rw [div_le_iff₀ hAa_pos]
    nlinarith
  have h2 := abs_le.mp (le_trans hquot hfar)
  have herr := floatRound_err ((n : ℚ) / A) hv_pos hv_hi
  have hround : |floatRound ((n : ℚ) / A) - (n : ℚ) / A| ≤ 1 / 4 := by
    refine le_trans herr ?_
    rw [div_le_iff₀ (by norm_num : (0 : ℚ) < 2 ^ 52)]
    linarith
  have h1 := abs_le.mp hround
  rw [abs_le]
  constructor <;> linarith

/-- Cross-multiplied aspect bound from a half-pixel window on the
derived coordinate. -/
theorem crossOfWindow (c2 P w S : Nat) (hS : 2 * w ≤ S) (hw1 : 1 ≤ w)
    (hup : (c2 : ℚ) ≤ (P : ℚ) / w + 1 / 2) (hlo : (P : ℚ) / w ≤ (c2 : ℚ) + 3 / 2) :
    P ≤ c2 * w + S ∧ c2 * w ≤ P + S := by
  have hw1q : (1 : ℚ) ≤ (w : ℚ) := by exact_mod_cast hw1
  have hwq : (0 : ℚ) < (w : ℚ) := by linarith
  have hSq : 2 * (w : ℚ) ≤ (S : ℚ) := by exact_mod_cast hS
  have hPw : (P : ℚ) / w * w = (P : ℚ) := div_mul_cancel₀ _ (ne_of_gt hwq)
  constructor
  · have h2 := mul_le_mul_of_nonneg_right hlo hwq.le
    rw [hPw] at h2
    have h2e : ((c2 : ℚ) + 3 / 2) * w = (c2 : ℚ) * w + (3 / 2) * w := by ring
    rw [h2e] at h2
    have h4 : (P : ℚ) ≤ ((c2 * w + S : Nat) : ℚ) := by
      push_cast
      linarith
    exact_mod_cast h4
  · have h2 := mul_le_mul_of_nonneg_right hup hwq.le
    rw [show ((P : ℚ) / w + 1 / 2) * w = (P : ℚ) / w * w + (1 / 2) * w from by ring,
      hPw] at h2
    have h4 : ((c2 : ℚ)) * w ≤ ((P + S : Nat) : ℚ) := by
      push_cast
      linarith
    have h5 : (((c2 * w : Nat)) : ℚ) ≤ ((P + S : Nat) : ℚ) := by
      push_cast
      push_cast at h4
      linarith
    exact_mod_cast h5

set_option maxHeartbeats 2000000 in
/-- C5: the aspect-deriving dimension computations — the initial resize
of `create_thumbnail` and the target size of `upscale_image` — match
the input ratio to within two pixels of truncation (cross-multiplied),
and the in-loop rescaling applies one common scale to both coordinates
with the same bound; the final-attempt clamp is excluded: the
counterexample shows it can break the ratio beyond any such bound. -/
theorem aspect_ratio_preservation (w h : Nat)
    (hw1 : 1 ≤ w) (hw : w ≤ 2 ^ 20) (hh1 : 1 ≤ h) (hh : h ≤ 2 ^ 20) :
    crossClose (ctInitDims w h).1 (ctInitDims w h).2 w h
    ∧ crossClose (upscaleDims w h).1 (upscaleDims w h).2 w h
    ∧ (∀ (m n : Nat) (s : ℚ), 1 ≤ m → m ≤ 2 ^ 20 → 1 ≤ n → n ≤ 2 ^ 20 →
        0 < s → s ≤ 1 →
        crossClose (scaledDims m n s).1 (scaledDims m n s).2 m n) := by
  have hwq1 : (1 : ℚ) ≤ (w : ℚ) := by exact_mod_cast hw1
  have hhq1 : (1 : ℚ) ≤ (h : ℚ) := by exact_mod_cast hh1
  have hwq2 : (w : ℚ) ≤ 2 ^ 20 := by exact_mod_cast hw
  have hhq2 : (h : ℚ) ≤ 2 ^ 20 := by exact_mod_cast hh
  have hhpos : (0 : ℚ) < (h : ℚ) := by linarith
  have hwpos : (0 : ℚ) < (w : ℚ) := by linarith
  have haw := aspectF_window w h hw1 hw hh1 hh
  have habs := abs_le.mp haw
  have ha_pos : (0 : ℚ) < (w : ℚ) / h := by positivity
  have ha_lo : (1 : ℚ) / 2 ^ 21 ≤ (w : ℚ) / h := by
    rw [div_le_div_iff₀ (by norm_num) hhpos]
    nlinarith
  have ha_hi : (w : ℚ) / h ≤ 2 ^ 21 := by
    rw [div_le_iff₀ hhpos]
    nlinarith
  refine ⟨?_, ?_, ?_⟩
  · by_cases hlw : h ≤ w
    · have hdims : ctInitDims w h
          = (min 400 w, pyTrunc (fdiv (pyFloat (min 400 w)) (aspectF w h))) := by
        simp only [ctInitDims, if_pos hlw]
      rw [hdims]
      set nw := min 400 w with hnwdef
      have hnw1 : 1 ≤ nw := le_min (by norm_num) hw1
      have hnw20 : nw ≤ 2 ^ 20 := le_trans (min_le_right _ _) hw
      have hD := fdiv_window nw (aspectF w h) ((w : ℚ) / h) hnw1 hnw20 ha_lo ha_hi haw
      have hratio : (nw : ℚ) / ((w : ℚ) / h) = ((nw * h : Nat) : ℚ) / w := by
        push_cast
        field_simp
      rw [hratio] at hD
      have hFW := floorWindow _ _ (by positivity) hD
      have hcross := crossOfWindow (pyTrunc (fdiv (pyFloat nw) (aspectF w h)))
        (nw * h) w (2 * (w + h)) (by omega) hw1 hFW.1 hFW.2
      exact ⟨hcross.1, hcross.2⟩
    · have hdims : ctInitDims w h
          = (pyTrunc (fmul (pyFloat (min 400 h)) (aspectF w h)), min 400 h) := by
        simp only [ctInitDims, if_neg hlw]
      rw [hdims]
      set nh := min 400 h with hnhdef
      have hnh1 : 1 ≤ nh := le_min (by norm_num) hh1
      have hnh20 : nh ≤ 2 ^ 20 := le_trans (min_le_right _ _) hh
      have hM := fmul_window nh (aspectF w h) ((w : ℚ) / h) hnh1 hnh20 ha_lo ha_hi haw
      have hratio : (nh : ℚ) * ((w : ℚ) / h) = ((nh * w : Nat) : ℚ) / h := by
        push_cast
        field_simp
      rw [hratio] at hM
      have hFW := floorWindow _ _ (by positivity) hM
      have hcross := crossOfWindow (pyTrunc (fmul (pyFloat nh) (aspectF w h)))
        (nh * w) h (2 * (w + h)) (by omega) hh1 hFW.1 hFW.2
      exact ⟨hcross.2, hcross.1⟩
  · by_cases hA1 : 1 ≤ aspectF w h
    · have hdims : upscaleDims w h
          = (min 800 (pyTrunc (fmul (pyFloat 800) (aspectF w h))),
             pyTrunc (fdiv (pyFloat (min 800 (pyTrunc (fmul (pyFloat 800) (aspectF w h)))))
               (aspectF w h))) := by
        simp only [upscaleDims, if_pos hA1]
      rw [hdims]
      set nw := min 800 (pyTrunc (fmul (pyFloat 800) (aspectF w h))) with hnwdef
      have ha_half : (1 : ℚ) / 2 ≤ (w : ℚ) / h := by
        by_contra hc
        push_neg at hc
        have hh2 : ((w : ℚ) / h) / 2 ^ 52 ≤ (w : ℚ) / h := by
          rw [div_le_iff₀ (by norm_num : (0 : ℚ) < 2 ^ 52)]
          nlinarith
        linarith
      have hM800 := fmul_window 800 (aspectF w h) ((w : ℚ) / h) (by norm_num) (by norm_num)
        ha_lo ha_hi haw
      have hM800' := abs_le.mp hM800
      have hbig : (399 : ℚ) ≤ fmul (pyFloat 800) (aspectF w h) := by
        have : (800 : ℚ) * ((w : ℚ) / h) ≥ 800 * (1 / 2) := by nlinarith
        linarith
      have hfloor : 399 ≤ pyTrunc (fmul (pyFloat 800) (aspectF w h)) := by
        have : ((399 : Nat) : ℚ) ≤ fmul (pyFloat 800) (aspectF w h) := by
          push_cast
          linarith
        exact Nat.le_floor this
      have hnw1 : 1 ≤ nw := by
        rw [hnwdef]
        have := le_min (show (399 : Nat) ≤ 800 from by norm_num) hfloor
        omega
      have hnw20 : nw ≤ 2 ^ 20 := le_trans (min_le_left _ _) (by norm_num)
      have hD := fdiv_window nw (aspectF w h) ((w : ℚ) / h) hnw1 hnw20 ha_lo ha_hi haw
      have hratio : (nw : ℚ) / ((w : ℚ) / h) = ((nw * h : Nat) : ℚ) / w := by
        push_cast
        field_simp
      rw [hratio] at hD
      have hFW := floorWindow _ _ (by positivity) hD
      have hcross := crossOfWindow (pyTrunc (fdiv (pyFloat nw) (aspectF w h)))
        (nw * h) w (2 * (w + h)) (by omega) hw1 hFW.1 hFW.2
      exact ⟨hcross.1, hcross.2⟩
    · have hdims : upscaleDims w h
          = (pyTrunc (fmul (pyFloat (min 800 (pyTrunc (fdiv (pyFloat 800) (aspectF w h)))))
               (aspectF w h)),
             min 800 (pyTrunc (fdiv (pyFloat 800) (aspectF w h)))) := by
        simp only [upscaleDims, if_neg hA1]
      rw [hdims]
      set nh := min 800 (pyTrunc (fdiv (pyFloat 800) (aspectF w h))) with hnhdef
      push_neg at hA1
      have ha_two : (w : ℚ) / h ≤ 2 := by
        by_contra hc
        push_neg at hc
        have hh2 : ((w : ℚ) / h) / 2 ^ 52 ≤ ((w : ℚ) / h) / 2 := by gcongr <;> norm_num
        linarith
      have hD800 := fdiv_window 800 (aspectF w h) ((w : ℚ) / h) (by norm_num) (by norm_num)
        ha_lo ha_hi haw
      have hD800' := abs_le.mp hD800
      have hbig : (399 : ℚ) ≤ fdiv (pyFloat 800) (aspectF w h) := by
        have h1 : (400 : ℚ) ≤ (800 : ℚ) / ((w : ℚ) / h) := by
          rw [le_div_iff₀ ha_pos]
          nlinarith
        linarith
      have hfloor : 399 ≤ pyTrunc (fdiv (pyFloat 800) (aspectF w h)) := by
        have : ((399 : Nat) : ℚ) ≤ fdiv (pyFloat 800) (aspectF w h) := by
          push_cast
          linarith
        exact Nat.le_floor this
      have hnh1 : 1 ≤ nh := by
        rw [hnhdef]
        have := le_min (show (399 : Nat) ≤ 800 from by norm_num) hfloor
        omega
      have hnh20 : nh ≤ 2 ^ 20 := le_trans (min_le_left _ _) (by norm_num)
      have hM := fmul_window nh (aspectF w h) ((w : ℚ) / h) hnh1 hnh20 ha_lo ha_hi haw
      have hratio : (nh : ℚ) * ((w : ℚ) / h) = ((nh * w : Nat) : ℚ) / h := by
        push_cast
        field_simp
      rw [hratio] at hM
      have hFW := floorWindow _ _ (by positivity) hM
      have hcross := crossOfWindow (pyTrunc (fmul (pyFloat nh) (aspectF w h)))
        (nh * w) h (2 * (w + h)) (by omega) hh1 hFW.1 hFW.2
      exact ⟨hcross.2, hcross.1⟩
  · intro m n s hm1 hm20 hn1 hn20 hs0 hs1
    have hmq1 : (1 : ℚ) ≤ (m : ℚ) := by exact_mod_cast hm1
    have hnq1 : (1 : ℚ) ≤ (n : ℚ) := by exact_mod_cast hn1
    have hmq2 : (m : ℚ) ≤ 2 ^ 20 := by exact_mod_cast hm20
    have hnq2 : (n : ℚ) ≤ 2 ^ 20 := by exact_mod_cast hn20
    have hm0q : (0 : ℚ) ≤ (m : ℚ) := by linarith
    have hn0q : (0 : ℚ) ≤ (n : ℚ) := by linarith
    have hfm : pyFloat m = (m : ℚ) := pyFloat_eq m (lt_of_le_of_lt hm20 (by norm_num))
    have hfn : pyFloat n = (n : ℚ) := pyFloat_eq n (lt_of_le_of_lt hn20 (by norm_num))
    have hms_pos : 0 < (m : ℚ) * s := by positivity
    have hns_pos : 0 < (n : ℚ) * s := by positivity
    have hms_hi : (m : ℚ) * s ≤ 2 ^ 42 := by
      have h1 : (m : ℚ) * s ≤ (m : ℚ) * 1 := mul_le_mul_of_nonneg_left hs1 hm0q
      rw [mul_one] at h1
      linarith
    have hns_hi : (n : ℚ) * s ≤ 2 ^ 42 := by
      have h1 : (n : ℚ) * s ≤ (n : ℚ) * 1 := mul_le_mul_of_nonneg_left hs1 hn0q
      rw [mul_one] at h1
      linarith
    have he1 := floatRound_err ((m : ℚ) * s) hms_pos hms_hi
    have he2 := floatRound_err ((n : ℚ) * s) hns_pos hns_hi
    have hsm1 : |floatRound ((m : ℚ) * s) - (m : ℚ) * s| ≤ 1 / 2 := by
      refine le_trans he1 ?_
      rw [div_le_iff₀ (by norm_num : (0 : ℚ) < 2 ^ 52)]
      linarith
    have hsm2 : |floatRound ((n : ℚ) * s) - (n : ℚ) * s| ≤ 1 / 2 := by
      refine le_trans he2 ?_
      rw [div_le_iff₀ (by norm_num : (0 : ℚ) < 2 ^ 52)]
      linarith
    have hFW1 := floorWindow _ _ hms_pos.le hsm1
    have hFW2 := floorWindow _ _ hns_pos.le hsm2
    have hsd : scaledDims m n s
        = (pyTrunc (fmul (pyFloat m) s), pyTrunc (fmul (pyFloat n) s)) := rfl
    rw [hsd]
    have hmulm : fmul (pyFloat m) s = floatRound ((m : ℚ) * s) := by rw [fmul, hfm]
    have hmuln : fmul (pyFloat n) s = floatRound ((n : ℚ) * s) := by rw [fmul, hfn]
    rw [hmulm, hmuln]
    have hp1 := mul_le_mul_of_nonneg_right hFW1.1 hn0q
    have hp2 := mul_le_mul_of_nonneg_right hFW2.2 hm0q
    have hp3 := mul_le_mul_of_nonneg_right hFW2.1 hm0q
    have hp4 := mul_le_mul_of_nonneg_right hFW1.2 hn0q
    refine ⟨?_, ?_⟩
    · have hc : ((⌊floatRound ((m : ℚ) * s)⌋₊ * n : Nat) : ℚ)
          ≤ ((⌊floatRound ((n : ℚ) * s)⌋₊ * m + 2 * (m + n) : Nat) : ℚ) := by
        push_cast
        linarith [hp1, hp2]
      exact_mod_cast hc
    · have hc : ((⌊floatRound ((n : ℚ) * s)⌋₊ * m : Nat) : ℚ)
          ≤ ((⌊floatRound ((m : ℚ) * s)⌋₊ * n + 2 * (m + n) : Nat) : ℚ) := by
        push_cast
        linarith [hp3, hp4]
      exact_mod_cast hc

/-- Witness for `aspect_ratio_preservation` at a 400 × 300 input. -/
theorem aspect_ratio_preservation_witness :
    crossClose (ctInitDims 400 300).1 (ctInitDims 400 300).2 400 300
    ∧ crossClose (upscaleDims 400 300).1 (upscaleDims 400 300).2 400 300
    ∧ (∀ (m n : Nat) (s : ℚ), 1 ≤ m → m ≤ 2 ^ 20 → 1 ≤ n → n ≤ 2 ^ 20 →
        0 < s → s ≤ 1 →
        crossClose (scaledDims m n s).1 (scaledDims m n s).2 m n) :=
  aspect_ratio_preservation 400 300 (by norm_num) (by norm_num) (by norm_num) (by norm_num)

/-- The initial resize of a 1600 × 400 input: exact float arithmetic
(all intermediate values are exactly representable) gives 400 × 100. -/
theorem ctInitDims_1600_400 : ctInitDims 1600 400 = (400, 100) := by
  have h1 : pyFloat 1600 = (1600 : ℚ) := pyFloat_eq 1600 (by norm_num)
  have h2 : pyFloat 400 = (400 : ℚ) := pyFloat_eq 400 (by norm_num)
  have ha : aspectF 1600 400 = 4 := by
    rw [aspectF, h1, h2, fdiv]
    rw [show (1600 : ℚ) / 400 = ((4 : Nat) : ℚ) / 2 ^ 0 from by norm_num]
    rw [floatRound_dyadic 4 0 (by norm_num) (by norm_num)]
    norm_num
  have hmin : min 400 1600 = 400 := by norm_num
  simp only [ctInitDims, if_pos (show (400 : Nat) ≤ 1600 from by norm_num)]
  rw [hmin, ha, h2, fdiv]
  rw [show (400 : ℚ) / 4 = ((100 : Nat) : ℚ) / 2 ^ 0 from by norm_num]
  rw [floatRound_dyadic 100 0 (by norm_num) (by norm_num)]
  simp only [pyTrunc]
  norm_num

/-- C5 counterexample: from a 1600 × 400 input the final-attempt
dimensions are 200 × 100 — ratio 2 : 1 instead of 4 : 1, 50 pixels away
from the aspect-true height — because `max(100, ...)` clamps only the
height: the clamp breaks the aspect ratio beyond any truncation bound. -/
theorem final_clamp_breaks_aspect :
    ¬ crossClose (ctFinalDims (ctInitDims 1600 400).1 (ctInitDims 1600 400).2).1
        (ctFinalDims (ctInitDims 1600 400).1 (ctInitDims 1600 400).2).2 1600 400 := by
  rw [ctInitDims_1600_400]
  have hf : ctFinalDims ((400 : Nat), (100 : Nat)).1 ((400 : Nat), (100 : Nat)).2
      = (200, 100) := by
    show ctFinalDims 400 100 = (200, 100)
    simp only [ctFinalDims]
    rw [half_exact 400 (by norm_num), half_exact 100 (by norm_num)]
    norm_num
  rw [hf]
  simp only [crossClose]
  intro hcc
  omega
